import Mathlib

/-!
# Verification of the TagTeam.js training scripts

Shallow embedding of the core algorithms of
`training/scripts/train_dep_parser.py` and
`training/scripts/train_pos_tagger.py`:

* the arc-eager transition system (`ArcEagerState`, `get_valid_transitions`,
  `apply`), the static oracle and the dynamic-oracle cost;
* the averaged perceptron (`update`, `average_weights`);
* the tag dictionary builder (`build_tagdict`);
* FNV-1a feature hashing and the additive-collision hashed model
  (`fnv1a_hash`, `hash_model`);
* the isotonic-calibration pool-adjacent-violators loop;
* the sparse binary model writer (`export_binary`) with its SHA-256
  checksummed header;
* the two word-shape functions and the two CoNLL-U readers.

Python floats are modelled by `Rat` wherever the arithmetic the code
performs on the quantities a claim mentions (adding / subtracting 1,
summing weights, dividing by an integer step counter, comparing against a
decimal threshold) is exact on the values exercised, with `round(x, d)` as
exact decimal round-half-to-even.  The one place where binary64 rounding
itself matters — the calibration loop's `(p + q) / 2` followed by
`round(avg, 4)` — is instead modelled bit-for-bit in IEEE-754 binary64
via scaled integers (see the PAV section).  Python dict-backed state is
modelled by total functions
together with explicit liveness / ordering data where dict membership or
iteration order matters.  Transition strings `'SHIFT'`, `'REDUCE'`,
`'LEFT-<l>'`, `'RIGHT-<l>'` are modelled by an inductive type whose
constructors carry the label, mirroring the `startswith` dispatch of the
source.  Python list indexing that the source only performs under a guard
(and that would raise otherwise) is modelled by `getD` with a default.
-/

namespace TagTeam

/-- Parser transitions.  The source represents these as the strings
`'SHIFT'`, `'REDUCE'`, `'LEFT-' + label`, `'RIGHT-' + label`; the label is
recovered by slicing after the `startswith` test. -/
inductive Transition where
  | SHIFT : Transition
  | REDUCE : Transition
  | LEFT : String → Transition
  | RIGHT : String → Transition
deriving DecidableEq, Repr

/-- `ArcEagerState.__init__` (train_dep_parser.py, lines 151-160): parser
configuration.  `heads[i] = -1` and `labels[i] = None` mean unset; the stack
is bottom-first (python `stack[-1]` is the top, modelled by `getLast`). -/
structure ArcEagerState where
  stack : List Nat
  buffer : List Nat
  heads : List Int
  labels : List (Option String)
  left_children : List (Option String)
  right_children : List (Option String)
  left_dep_count : List Nat
  right_dep_count : List Nat
  n : Nat
deriving DecidableEq, Repr

namespace ArcEagerState

/-- Initial configuration for a sentence of `n` tokens. -/
def init (n : Nat) : ArcEagerState where
  stack := [0]
  buffer := List.range' 1 n
  heads := List.replicate (n + 1) (-1)
  labels := List.replicate (n + 1) none
  left_children := List.replicate (n + 1) none
  right_children := List.replicate (n + 1) none
  left_dep_count := List.replicate (n + 1) 0
  right_dep_count := List.replicate (n + 1) 0
  n := n

/-- `stack[-1] if self.stack else -1`. -/
def s0 (st : ArcEagerState) : Int :=
  match st.stack.getLast? with
  | some x => (x : Int)
  | none => -1

/-- `stack[-2] if len(self.stack) > 1 else -1`. -/
def s1 (st : ArcEagerState) : Int :=
  match st.stack.dropLast.getLast? with
  | some x => (x : Int)
  | none => -1

/-- `buffer[0] if self.buffer else -1`. -/
def b0 (st : ArcEagerState) : Int :=
  match st.buffer with
  | x :: _ => (x : Int)
  | [] => -1

/-- `is_terminal`: buffer empty and at most ROOT on the stack. -/
def is_terminal (st : ArcEagerState) : Bool :=
  st.buffer.isEmpty && st.stack.length ≤ 1

/-- `get_valid_transitions` (lines 177-205): SHIFT iff buffer non-empty;
REDUCE iff `s0 > 0` with a head; all LEFT-l iff buffer non-empty, `s0 > 0`
and no head; all RIGHT-l iff buffer non-empty. -/
def get_valid_transitions (st : ArcEagerState) (transition_set : List Transition) :
    List Transition :=
  (if st.buffer = [] then [] else [Transition.SHIFT]) ++
  (if 0 < st.s0 ∧ st.heads.getD st.s0.toNat (-1) ≠ -1 then [Transition.REDUCE] else []) ++
  (if st.buffer ≠ [] ∧ 0 < st.s0 ∧ st.heads.getD st.s0.toNat (-1) = -1 then
    transition_set.filter fun t => match t with | Transition.LEFT _ => true | _ => false
  else []) ++
  (if st.buffer ≠ [] then
    transition_set.filter fun t => match t with | Transition.RIGHT _ => true | _ => false
  else [])

/-- `apply` (lines 207-237).  The source mutates in place and raises on the
(unreached) empty-stack / empty-buffer cases; those cases return the state
unchanged here, and no claim exercises them. -/
def apply (st : ArcEagerState) (t : Transition) : ArcEagerState :=
  match t with
  | Transition.SHIFT =>
    match st.buffer with
    | b :: rest => { st with stack := st.stack ++ [b], buffer := rest }
    | [] => st
  | Transition.REDUCE => { st with stack := st.stack.dropLast }
  | Transition.LEFT label =>
    match st.stack.getLast?, st.buffer with
    | some dep, head :: _ =>
      let st1 := { st with
        stack := st.stack.dropLast
        heads := st.heads.set dep (head : Int)
        labels := st.labels.set dep (some label) }
      if dep < head then
        { st1 with
          left_children := st1.left_children.set head (some label)
          left_dep_count := st1.left_dep_count.set head
            (st1.left_dep_count.getD head 0 + 1) }
      else
        { st1 with
          right_children := st1.right_children.set head (some label)
          right_dep_count := st1.right_dep_count.set head
            (st1.right_dep_count.getD head 0 + 1) }
    | _, _ => st
  | Transition.RIGHT label =>
    match st.buffer, st.stack.getLast? with
    | dep :: rest, some head =>
      let st1 := { st with
        buffer := rest
        heads := st.heads.set dep (head : Int)
        labels := st.labels.set dep (some label)
        stack := st.stack ++ [dep] }
      if dep < head then
        { st1 with
          left_children := st1.left_children.set head (some label)
          left_dep_count := st1.left_dep_count.set head
            (st1.left_dep_count.getD head 0 + 1) }
      else
        { st1 with
          right_children := st1.right_children.set head (some label)
          right_dep_count := st1.right_dep_count.set head
            (st1.right_dep_count.getD head 0 + 1) }
    | _, _ => st

end ArcEagerState

/-- `dynamic_oracle_cost` (lines 271-347).  `none` models the
`float('inf')` returned on the LEFT / RIGHT guards; all finite costs are
naturals. -/
def dynamic_oracle_cost (st : ArcEagerState) (t : Transition)
    (gold_heads : List Int) (gold_labels : List String) : Option Nat :=
  match t with
  | Transition.SHIFT =>
    some (if 0 < st.s0 then
      (if gold_heads.getD st.s0.toNat (-1) = st.b0 then 1 else 0) +
      (st.buffer.filter fun j =>
        decide (gold_heads.getD j (-1) = st.s0 ∧ st.heads.getD j (-1) = -1)).length
    else 0)
  | Transition.REDUCE =>
    some (if 0 < st.s0 then
      (st.buffer.filter fun j => decide (gold_heads.getD j (-1) = st.s0)).length
    else 0)
  | Transition.LEFT label =>
    if st.s0 ≤ 0 then none
    else if gold_heads.getD st.s0.toNat (-1) = st.b0 ∧
        gold_labels.getD st.s0.toNat "" = label then
      some 0
    else if gold_heads.getD st.s0.toNat (-1) = st.b0 then some 1
    else some 1
  | Transition.RIGHT label =>
    if st.b0 < 0 then none
    else if gold_heads.getD st.b0.toNat (-1) = st.s0 ∧
        gold_labels.getD st.b0.toNat "" = label then
      some 0
    else if gold_heads.getD st.b0.toNat (-1) = st.s0 then some 1
    else some (if gold_heads.getD st.b0.toNat (-1) ≠ st.s0 then 0 + 1 else 0)

/-- `static_oracle` (lines 631-665): priority LEFT, RIGHT, REDUCE (no gold
dependent left in buffer), SHIFT, fallback REDUCE, else `None`. -/
def static_oracle (st : ArcEagerState) (gold_heads : List Int)
    (gold_labels : List String) : Option Transition :=
  if 0 < st.s0 ∧ 0 < st.b0 ∧ gold_heads.getD st.s0.toNat (-1) = st.b0 then
    some (Transition.LEFT (gold_labels.getD st.s0.toNat ""))
  else if 0 ≤ st.s0 ∧ 0 < st.b0 ∧ gold_heads.getD st.b0.toNat (-1) = st.s0 then
    some (Transition.RIGHT (gold_labels.getD st.b0.toNat ""))
  else if 0 < st.s0 ∧ st.heads.getD st.s0.toNat (-1) ≠ -1 ∧
      ¬ (st.buffer.any fun j => gold_heads.getD j (-1) = st.s0) then
    some Transition.REDUCE
  else if st.buffer ≠ [] then
    some Transition.SHIFT
  else if 0 < st.s0 ∧ st.heads.getD st.s0.toNat (-1) ≠ -1 then
    some Transition.REDUCE
  else
    none

/-- Crossing-arc count of `measure_non_projective` (lines 1101-1140),
specialised to one gold head vector `heads[0..n]` (index 0 is ROOT): the
number of tokens `i ≥ 1` whose arc `(i, heads[i])` is crossed by some other
arc. A head vector is projective iff this count is zero. -/
def non_projective_arc_count (heads : List Int) (n : Nat) : Nat :=
  ((List.range' 1 n).filter fun i =>
    let hi := heads.getD i 0
    let lo := min (i : Int) hi
    let hiArc := max (i : Int) hi
    (List.range' 1 n).any fun j =>
      j ≠ i &&
      (let hj := heads.getD j 0
       let loJ := min (j : Int) hj
       let hiJ := max (j : Int) hj
       decide ((lo < loJ ∧ loJ < hiArc ∧ hiArc < hiJ) ∨
               (loJ < lo ∧ lo < hiJ ∧ hiJ < hiArc)))).length

/-- The arc-eager cost table exactly as the spec (§4.3) writes it: the SHIFT
and REDUCE rows (whose formulas mention `s0`, so they are read for a
configuration with a non-ROOT stack top), the LEFT row with its
`∞ if s0 ≤ 0` guard and the RIGHT row with its `∞ if b0 < 0` guard. -/
def spec_cost_table (st : ArcEagerState) (t : Transition)
    (gold_heads : List Int) (gold_labels : List String) : Option Nat :=
  match t with
  | Transition.SHIFT =>
    some ((if gold_heads.getD st.s0.toNat (-1) = st.b0 then 1 else 0) +
      (st.buffer.filter fun j =>
        decide (gold_heads.getD j (-1) = st.s0 ∧ st.heads.getD j (-1) = -1)).length)
  | Transition.REDUCE =>
    some (st.buffer.filter fun j => decide (gold_heads.getD j (-1) = st.s0)).length
  | Transition.LEFT label =>
    if st.s0 ≤ 0 then none
    else if gold_heads.getD st.s0.toNat (-1) = st.b0 ∧
        gold_labels.getD st.s0.toNat "" = label then
      some 0
    else some 1
  | Transition.RIGHT label =>
    if st.b0 < 0 then none
    else if gold_heads.getD st.b0.toNat (-1) = st.s0 ∧
        gold_labels.getD st.b0.toNat "" = label then
      some 0
    else some 1

/-- Gold heads of the C1 counterexample sentence: three tokens with
`heads = [0, 3, 1]` (token 1 headed by ROOT, token 2 by token 3, token 3 by
token 1); the leading entry is the ROOT placeholder.  The tree is
projective. -/
def c1_gold_heads : List Int := [0, 0, 3, 1]

/-- Gold labels matching `c1_gold_heads` (index 0 is the ROOT placeholder,
as in the training driver's `['ROOT'] + [deprel ...]`). -/
def c1_gold_labels : List String := ["ROOT", "root", "det", "obl"]

/-- The C1 counterexample configuration: reached from the initial
configuration for the 3-token sentence by RIGHT-root, which is itself the
static oracle's first move there. -/
def c1_state : ArcEagerState :=
  (ArcEagerState.init 3).apply (Transition.RIGHT "root")


/-- A transition sequence is a valid chain from `st` when each transition is
drawn from `get_valid_transitions` at the configuration where it is
applied. -/
def valid_chain (transition_set : List Transition) :
    ArcEagerState → List Transition → Bool
  | _, [] => true
  | st, t :: rest =>
    decide (t ∈ st.get_valid_transitions transition_set) &&
      valid_chain transition_set (st.apply t) rest

/-- Apply a sequence of transitions in order. -/
def run_transitions (st : ArcEagerState) (ts : List Transition) : ArcEagerState :=
  ts.foldl ArcEagerState.apply st

/-- The ROOT invariant of C9: the stack is non-empty with token 0 at its
bottom and only non-ROOT tokens above it, the buffer holds only non-ROOT
tokens, and `heads[0]` / `labels[0]` are unset. -/
def root_inv (st : ArcEagerState) : Prop :=
  st.stack ≠ [] ∧ st.stack.head? = some 0 ∧ (∀ x ∈ st.stack.tail, 0 < x) ∧
  (∀ x ∈ st.buffer, 0 < x) ∧ st.heads[0]? = some (-1) ∧
  st.labels[0]? = some none

instance (st : ArcEagerState) : Decidable (root_inv st) := by
  unfold root_inv
  infer_instance

/-- Pointwise update of a nested mapping at one `(feature, class)` cell. -/
def upd2 {α : Type} (f : String → String → α) (a b : String) (v : α) :
    String → String → α :=
  fun x y => if x = a ∧ y = b then v else f x y

/-- `AveragedPerceptron` state (train_pos_tagger.py lines 214-220,
train_dep_parser.py lines 558-563): the nested `weights`, `_totals` and
`_tstamps` defaultdicts (modelled as total functions with defaults 0) plus
the step counter.  `live f c` records whether the cell `(f, c)` is present
in the `weights` dict: the defaultdict inserts it the first time `update`
touches it, and `average_weights` iterates exactly over those cells. -/
structure Perceptron where
  weights : String → String → Rat
  totals : String → String → Rat
  tstamps : String → String → Nat
  live : String → String → Bool
  step : Nat

/-- Body of the `for feat in features` loop of `update` (train_pos_tagger.py
lines 240-247): for `cls` in `[truth, guess]`, accumulate
`totals[f][c] += (step - tstamps[f][c]) * weights[f][c]` and stamp
`tstamps[f][c] = step` (reading `weights[feat][cls]` inserts the cell);
then `weights[feat][truth] += 1` and `weights[feat][guess] -= 1`. -/
def update_feat (p : Perceptron) (truth guess feat : String) : Perceptron :=
  let p1 := { p with
    totals := upd2 p.totals feat truth
      (p.totals feat truth +
        ((p.step : Rat) - (p.tstamps feat truth : Rat)) * p.weights feat truth)
    tstamps := upd2 p.tstamps feat truth p.step
    live := upd2 p.live feat truth true }
  let p2 := { p1 with
    totals := upd2 p1.totals feat guess
      (p1.totals feat guess +
        ((p1.step : Rat) - (p1.tstamps feat guess : Rat)) * p1.weights feat guess)
    tstamps := upd2 p1.tstamps feat guess p1.step
    live := upd2 p1.live feat guess true }
  { p2 with
    weights := upd2 (upd2 p2.weights feat truth (p2.weights feat truth + 1))
      feat guess
      ((upd2 p2.weights feat truth (p2.weights feat truth + 1)) feat guess - 1) }

/-- `AveragedPerceptron.update` (train_pos_tagger.py lines 234-247): always
increment the step counter; return unless `truth != guess`; otherwise run
the per-feature loop. -/
def Perceptron.update (p : Perceptron) (truth guess : String)
    (features : List String) : Perceptron :=
  let q := { p with step := p.step + 1 }
  if truth = guess then q
  else features.foldl (fun r f => update_feat r truth guess f) q

/-- `AveragedPerceptron.average_weights` (train_pos_tagger.py lines
249-263): increment the step once more and return, for each live cell,
`(totals + (step - tstamp) * weight) / step`, dropping zero values (and so
features with no surviving class).  Returned as the stepped state together
with the cellwise mapping. -/
def Perceptron.average_weights (p : Perceptron) :
    Perceptron × (String → String → Option Rat) :=
  let q := { p with step := p.step + 1 }
  (q, fun f c =>
    if q.live f c then
      let v := (q.totals f c +
        ((q.step : Rat) - (q.tstamps f c : Rat)) * q.weights f c) / (q.step : Rat)
      if v ≠ 0 then some v else none
    else none)

/-- A concrete empty perceptron used by witnesses. -/
def c3_p0 : Perceptron :=
  ⟨fun _ _ => 0, fun _ _ => 0, fun _ _ => 0, fun _ _ => false, 0⟩


/-- Keys of a python dict in insertion order: first occurrence wins. -/
def first_dedup (l : List String) : List String :=
  l.foldl (fun acc t => if t ∈ acc then acc else acc ++ [t]) []

/-- `max(tag_counts, key=tag_counts.get)`: scanning the keys in insertion
order, a later key replaces the current best only on a strictly greater
count, so the first maximal key wins. -/
def best_tag (counts : String → Nat) : List String → Option String
  | [] => none
  | t :: ts => some (ts.foldl (fun best u => if counts best < counts u then u else best) t)

/-- The `(form, xpos)` pairs of `sentences` whose form is `w`. -/
def word_occs (sentences : List (List (String × String))) (w : String) :
    List (String × String) :=
  sentences.flatten.filter fun p => p.1 = w

/-- `build_tagdict` (train_pos_tagger.py lines 270-291), read as the mapping
it builds: a word maps to its most frequent tag when it occurs at least
`freq_threshold = 5` times and that tag accounts for at least
`agreement_threshold = 0.97` of the occurrences.  The float division
`tag_counts[best_tag] / total >= 0.97` is modelled by exact rational
comparison (no value exercised here is near the rounding boundary). -/
def build_tagdict (sentences : List (List (String × String))) (w : String) :
    Option String :=
  if (word_occs sentences w).length < 5 then none
  else
    match best_tag (fun t => ((word_occs sentences w).filter fun p => p.2 = t).length)
        (first_dedup ((word_occs sentences w).map Prod.snd)) with
    | none => none
    | some best =>
      if (((word_occs sentences w).filter fun p => p.2 = best).length : Rat) /
          ((word_occs sentences w).length : Rat) ≥ 97 / 100 then
        some best
      else none

/-- The count of the most frequent tag of `w`, as the spec words it. -/
def spec_max_tag_count (sentences : List (List (String × String)))
    (w : String) : Nat :=
  ((first_dedup ((word_occs sentences w).map Prod.snd)).map
    (fun t => ((word_occs sentences w).filter fun p => p.2 = t).length)).foldr
    max 0

/-- C4 counterexample input: one sentence with ten `(the, DT)` tokens and
one `(the, IN)` token. -/
def c4_sents : List (List (String × String)) :=
  [List.replicate 10 ("the", "DT") ++ [("the", "IN")]]

/-- C4 witness input: one sentence with five `(the, DT)` tokens
(5/5 = 1 ≥ 0.97, count ≥ 5). -/
def c4_sents2 : List (List (String × String)) :=
  [List.replicate 5 ("the", "DT")]


/-- Per-character shape class of the POS script (train_pos_tagger.py lines
104-124): upper → `X`, lower → `x`, digit → `d`, anything else → the
literal character.  Character classes are modelled by Lean's ASCII
`Char.isUpper` / `isLower` / `isDigit` (python's tests are Unicode-aware;
every character exercised by the claims is ASCII). -/
def pos_shape_char (c : Char) : Char :=
  if c.isUpper then 'X'
  else if c.isLower then 'x'
  else if c.isDigit then 'd'
  else c

/-- Per-character shape class of the parser script (train_dep_parser.py
lines 354-372): upper → `X`, lower → `x`, digit → `d`, `-` → `-`, anything
else → `.`. -/
def dep_shape_char (c : Char) : Char :=
  if c.isUpper then 'X'
  else if c.isLower then 'x'
  else if c.isDigit then 'd'
  else if c = '-' then '-'
  else '.'

/-- The shared shape loop: map each character through `f`, appending to the
shape only when the class differs from the previous one (run collapsing).
The python `prev` starts as the empty string, which never equals a
character: modelled by `none`. -/
def shape_fold (f : Char → Char) (w : List Char) : List Char :=
  (w.foldl (fun (acc : List Char × Option Char) ch =>
    if some (f ch) = acc.2 then acc else (acc.1 ++ [f ch], some (f ch)))
    ([], none)).1

/-- `_word_shape` of train_pos_tagger.py: returns the collapsed shape, the
empty string for an empty word. -/
def pos_word_shape (w : String) : String :=
  String.mk (shape_fold pos_shape_char w.data)

/-- `_word_shape` of train_dep_parser.py: returns the collapsed shape, or
`"x"` when the shape is empty. -/
def dep_word_shape (w : String) : String :=
  if shape_fold dep_shape_char w.data = [] then "x"
  else String.mk (shape_fold dep_shape_char w.data)

/-- `str.strip()` on the whitespace exercised here (space, tab, CR, LF),
modelled structurally so that it evaluates in the kernel. -/
def is_space_char (c : Char) : Bool :=
  c = ' ' ∨ c = '\t' ∨ c = '\n' ∨ c = '\r'

def trim_chars (l : List Char) : List Char :=
  ((l.dropWhile is_space_char).reverse.dropWhile is_space_char).reverse

/-- `line.split('\t')`: split on every tab, keeping empty fields;
`''.split('\t') = ['']`. -/
def split_tab (l : List Char) : List (List Char) :=
  l.foldr (fun c acc =>
    if c = '\t' then [] :: acc else (c :: acc.headD []) :: acc.tail) [[]]

/-- `int(s)` for the non-negative decimal ids and heads of CoNLL-U files
(python raises on other input; no claim exercises that). -/
def parse_int_chars (l : List Char) : Int :=
  (l.foldl (fun acc c => acc * 10 + (c.toNat - 48)) 0 : Nat)

/-- One line of the POS script's `parse_conllu` (train_pos_tagger.py lines
65-97) acting on the `(sentences, current)` accumulator: blank lines flush
the current sentence, `#` lines are skipped, lines with fewer than 5
tab-separated fields are skipped, ids containing `-` or `.` are skipped,
and otherwise `(form, xpos)` = fields 1 and 4 is appended. -/
def pos_parse_line (acc : List (List (String × String)) × List (String × String))
    (line : String) : List (List (String × String)) × List (String × String) :=
  if trim_chars line.data = [] then
    (if acc.2 = [] then acc else (acc.1 ++ [acc.2], []))
  else if (trim_chars line.data).headD ' ' = '#' then acc
  else if (split_tab (trim_chars line.data)).length < 5 then acc
  else if ((split_tab (trim_chars line.data)).getD 0 []).contains '-' ∨
      ((split_tab (trim_chars line.data)).getD 0 []).contains '.' then acc
  else
    (acc.1, acc.2 ++ [(String.mk ((split_tab (trim_chars line.data)).getD 1 []),
      String.mk ((split_tab (trim_chars line.data)).getD 4 []))])

/-- The POS script's `parse_conllu` over a list of lines, flushing the last
sentence at end of input. -/
def pos_parse_conllu (lines : List String) : List (List (String × String)) :=
  if (lines.foldl pos_parse_line ([], [])).2 = [] then
    (lines.foldl pos_parse_line ([], [])).1
  else (lines.foldl pos_parse_line ([], [])).1 ++
    [(lines.foldl pos_parse_line ([], [])).2]

/-- One line of the parser script's `parse_conllu` (train_dep_parser.py
lines 99-134): same shape, but lines with fewer than 10 tab-separated
fields are skipped and each token also carries `(id, head, deprel)`. -/
def dep_parse_line
    (acc : List (List (Int × String × String × Int × String)) ×
      List (Int × String × String × Int × String)) (line : String) :
    List (List (Int × String × String × Int × String)) ×
      List (Int × String × String × Int × String) :=
  if trim_chars line.data = [] then
    (if acc.2 = [] then acc else (acc.1 ++ [acc.2], []))
  else if (trim_chars line.data).headD ' ' = '#' then acc
  else if (split_tab (trim_chars line.data)).length < 10 then acc
  else if ((split_tab (trim_chars line.data)).getD 0 []).contains '-' ∨
      ((split_tab (trim_chars line.data)).getD 0 []).contains '.' then acc
  else
    (acc.1, acc.2 ++ [(parse_int_chars ((split_tab (trim_chars line.data)).getD 0 []),
      String.mk ((split_tab (trim_chars line.data)).getD 1 []),
      String.mk ((split_tab (trim_chars line.data)).getD 4 []),
      parse_int_chars ((split_tab (trim_chars line.data)).getD 6 []),
      String.mk ((split_tab (trim_chars line.data)).getD 7 []))])

/-- The parser script's `parse_conllu` over a list of lines. -/
def dep_parse_conllu (lines : List String) :
    List (List (Int × String × String × Int × String)) :=
  if (lines.foldl dep_parse_line ([], [])).2 = [] then
    (lines.foldl dep_parse_line ([], [])).1
  else (lines.foldl dep_parse_line ([], [])).1 ++
    [(lines.foldl dep_parse_line ([], [])).2]

/-- C10 input: a single token line with exactly 7 tab-separated fields. -/
def c10_lines : List String := ["1\tfoo\t_\t_\tNN\t_\t7"]


/-- Round-half-to-even on an exact rational, python's `round()` tie
behaviour on exactly representable values (used for `round(x, 2)` in C5,
whose weight sums are exact). -/
def round_half_even (x : Rat) : Int :=
  if x - Int.floor x < 1 / 2 then Int.floor x
  else if 1 / 2 < x - Int.floor x then Int.floor x + 1
  else if Int.floor x % 2 = 0 then Int.floor x else Int.floor x + 1

/-! ### The PAV loop of `build_calibration_table` under binary64 semantics

The isotonic-regression loop (train_dep_parser.py lines 879-888) operates
on Python floats, i.e. IEEE-754 binary64 values.  Every such value in the
binade `[1/2, 1)` is exactly `n / 2⁵³` for an integer `n ∈ [2⁵², 2⁵³)`,
and is represented below by the scaled integer `n` (a value of exactly
`1` by `2⁵³`).  On this range the three operations the loop performs are
modelled exactly:

* `(p + q) / 2`: the sum of two floats of `[1/2, 1)` lands in `[1, 2)`,
  where binary64 rounds the exact sum `(np + nq) / 2⁵³` to the nearest
  multiple of `2⁻⁵²` with ties to even, and the subsequent halving is
  exact — scaled integer `rdiv_he (np + nq) 2`;
* `round(x, 4)`: CPython rounds the exact binary value of `x` to 4
  decimal digits (correct rounding, half-to-even on the rare exact ties)
  and converts the resulting decimal to the nearest double — with
  `x = n / 2⁵³` the decimal numerator is `625 * n / 2⁴⁹` rounded to an
  integer, and the double nearest `q / 10⁴` has scaled integer
  `q * 2⁴⁹ / 625` rounded (never an exact tie: `2⁵⁰ * q` is even while
  `625 * odd` is odd);
* `p < q` on floats compares exact values, i.e. the scaled integers.

All probabilities of `c6_bad` below lie in `[1/2, 1)` and the sweep keeps
them there (the fixed-point computation certifies this), so the integer
dynamics below is bit-for-bit the program's float dynamics. -/

/-- Round-half-to-even integer division: the nearest integer to `a / b`
(for `b ≠ 0`), ties to the even quotient — the rounding primitive of
binary64 arithmetic and of CPython's decimal `round()`. -/
def rdiv_he (a b : Nat) : Nat :=
  if 2 * (a % b) < b then a / b
  else if b < 2 * (a % b) then a / b + 1
  else if a / b % 2 = 0 then a / b else a / b + 1

/-- Binary64 `(p + q) / 2` on the scaled integers of two floats in
`[1/2, 1)`. -/
def float_avg (np nq : Nat) : Nat := rdiv_he (np + nq) 2

/-- The 4-decimal numerator of CPython's `round(x, 4)` for the float
`n / 2⁵³`. -/
def float_dec4 (n : Nat) : Nat := rdiv_he (625 * n) 562949953421312

/-- The scaled integer of the double nearest `q / 10⁴`, for
`5000 ≤ q ≤ 10⁴`. -/
def float_enc4 (q : Nat) : Nat := rdiv_he (q * 562949953421312) 625

/-- Binary64 `round(x, 4)` on scaled integers. -/
def float_round4 (n : Nat) : Nat := float_enc4 (float_dec4 n)

/-- A calibration bin record `{margin, probability, count}`; the
probability float is carried as its scaled integer (see above), the
margin float as an exact rational — the loop never reads margins or
counts. -/
structure CalibBin where
  margin : Rat
  probability : Nat
  count : Nat
deriving DecidableEq, Repr

/-- `bins[i]['probability'] = p`. -/
def set_prob (b : CalibBin) (p : Nat) : CalibBin :=
  { b with probability := p }

/-- The body of one pool-adjacent-violators sweep of
`build_calibration_table` (train_dep_parser.py lines 879-888): walk the
bins left to right carrying the current value of `bins[i-1]`; when
`bins[i].probability < bins[i-1].probability`, assign
`round((p(i-1)+p(i))/2, 4)` to both. -/
def pav_step : CalibBin → List CalibBin → List CalibBin × Bool
  | prev, [] => ([prev], false)
  | prev, b :: rest =>
    if b.probability < prev.probability then
      (set_prob prev (float_round4 (float_avg prev.probability b.probability)) ::
        (pav_step
          (set_prob b (float_round4 (float_avg prev.probability b.probability)))
          rest).1,
        true)
    else
      (prev :: (pav_step b rest).1, (pav_step b rest).2)

/-- One full `for i in range(1, len(bins))` sweep, returning the updated
bins and the `changed` flag. -/
def pav_pass : List CalibBin → List CalibBin × Bool
  | [] => ([], false)
  | b :: rest => pav_step b rest

/-- The `while changed` loop with explicit fuel; `none` means the fuel ran
out without the loop ever observing a sweep with no change. -/
def pav_loop : Nat → List CalibBin → Option (List CalibBin)
  | 0, _ => none
  | fuel + 1, bins =>
    if (pav_pass bins).2 then pav_loop fuel (pav_pass bins).1
    else some (pav_pass bins).1

/-- C6 failing input: the ten equal-frequency bins of a dev set with
100000 scored arcs (`n_bins = 10`, so `bin_size = 10000` and exactly ten
chunks) whose chunk accuracies, in ascending-margin order, are
`[0.5732, 0.5731, 0.5730, 0.5729, 0.5729, 0.6, 0.7, 0.8, 0.9, 0.99]`.
Each stored probability is `round(k/10000, 4)`, the double nearest the
4-decimal value, i.e. `float_enc4 k`; the margins (ascending, from the
sort) are irrelevant to the loop. -/
def c6_bad : List CalibBin :=
  [⟨0, float_enc4 5732, 10000⟩, ⟨1, float_enc4 5731, 10000⟩,
   ⟨2, float_enc4 5730, 10000⟩, ⟨3, float_enc4 5729, 10000⟩,
   ⟨4, float_enc4 5729, 10000⟩, ⟨5, float_enc4 6000, 10000⟩,
   ⟨6, float_enc4 7000, 10000⟩, ⟨7, float_enc4 8000, 10000⟩,
   ⟨8, float_enc4 9000, 10000⟩, ⟨9, float_enc4 9900, 10000⟩]


/-- `fnv1a_hash` (train_dep_parser.py lines 917-925): FNV-1a over the code
points of the key, 32-bit wrap after each multiply, reduced mod the bucket
count. -/
def fnv1a_hash (s : String) (num_buckets : Nat) : Nat :=
  (s.data.foldl (fun h ch => ((h ^^^ ch.toNat) * 0x01000193) % 4294967296)
    0x811c9dc5) % num_buckets

/-- `round(x, 2)` as exact decimal rounding (see `round_half_even`). -/
def round2 (x : Rat) : Rat := (round_half_even (x * 100) : Rat) / 100

/-- The accumulator built by the first loop of `hash_model`
(train_dep_parser.py lines 936-942): `hashed[bucket][trans] += w` over all
`(feat, row)` items, modelled as a total function with default 0.  The
input weights dict is modelled as an association list in iteration
order. -/
def hash_accum_val (ws : List (String × List (String × Rat))) (B : Nat) :
    Nat → String → Rat :=
  ws.foldl (fun acc fr =>
    fr.2.foldl (fun acc2 tw => fun b c =>
      if b = fnv1a_hash fr.1 B ∧ c = tw.1 then acc2 b c + tw.2 else acc2 b c)
      acc)
    fun _ _ => 0

/-- Which `(bucket, transition)` cells the first loop of `hash_model`
creates in the `hashed` defaultdict. -/
def hash_accum_touched (ws : List (String × List (String × Rat))) (B : Nat) :
    Nat → String → Bool :=
  ws.foldl (fun acc fr =>
    fr.2.foldl (fun acc2 tw => fun b c =>
      if b = fnv1a_hash fr.1 B ∧ c = tw.1 then true else acc2 b c)
      acc)
    fun _ _ => false

/-- Cellwise reading of `hash_model` (train_dep_parser.py lines 928-965)
with the parser's `round_digits = 2`: a cell survives iff it was created
by the accumulation loop and its rounded value passes the prune test
`abs(w) >= prune_threshold` (a bucket with no surviving cell simply has no
surviving cells). -/
def hash_model_lookup (ws : List (String × List (String × Rat))) (B : Nat)
    (prune : Rat) (b : Nat) (c : String) : Option Rat :=
  if hash_accum_touched ws B b c = true ∧
      prune ≤ |round2 (hash_accum_val ws B b c)| then
    some (round2 (hash_accum_val ws B b c))
  else none

/-- The spec's description of the hashed value: the sum of the input
weights over all feature keys hashing to bucket `b`, at class `c`. -/
def bucket_sum_spec (ws : List (String × List (String × Rat))) (B : Nat)
    (b : Nat) (c : String) : Rat :=
  (ws.map fun fr =>
    if fnv1a_hash fr.1 B = b then
      ((fr.2.filter fun tw => tw.1 = c).map Prod.snd).sum
    else 0).sum

/-- The spec-side domain: some input feature key hashes to bucket `b` with
class `c` in its row. -/
def bucket_touched_spec (ws : List (String × List (String × Rat))) (B : Nat)
    (b : Nat) (c : String) : Bool :=
  ws.any fun fr =>
    decide (fnv1a_hash fr.1 B = b) && fr.2.any fun tw => decide (tw.1 = c)

/-! ### SHA-256 (`hashlib.sha256(payload).digest()`)

A byte-level implementation of FIPS 180-4 SHA-256 on `List Nat` (each entry
a byte), used by `export_binary` to checksum the payload.  Words are `Nat`
reduced `% 2^32` at every arithmetic step. -/

def rotr32 (x n : Nat) : Nat :=
  ((x >>> n) ||| (x <<< (32 - n))) % 4294967296

def sha_ch (e f g : Nat) : Nat := (e &&& f) ^^^ ((e ^^^ 0xFFFFFFFF) &&& g)

def sha_maj (a b c : Nat) : Nat := (a &&& b) ^^^ (a &&& c) ^^^ (b &&& c)

def bsig0 (x : Nat) : Nat := rotr32 x 2 ^^^ rotr32 x 13 ^^^ rotr32 x 22

def bsig1 (x : Nat) : Nat := rotr32 x 6 ^^^ rotr32 x 11 ^^^ rotr32 x 25

def ssig0 (x : Nat) : Nat := rotr32 x 7 ^^^ rotr32 x 18 ^^^ (x >>> 3)

def ssig1 (x : Nat) : Nat := rotr32 x 17 ^^^ rotr32 x 19 ^^^ (x >>> 10)

def sha256_k : List Nat :=
  [1116352408, 1899447441, 3049323471, 3921009573,
   961987163, 1508970993, 2453635748, 2870763221,
   3624381080, 310598401, 607225278, 1426881987,
   1925078388, 2162078206, 2614888103, 3248222580,
   3835390401, 4022224774, 264347078, 604807628,
   770255983, 1249150122, 1555081692, 1996064986,
   2554220882, 2821834349, 2952996808, 3210313671,
   3336571891, 3584528711, 113926993, 338241895,
   666307205, 773529912, 1294757372, 1396182291,
   1695183700, 1986661051, 2177026350, 2456956037,
   2730485921, 2820302411, 3259730800, 3345764771,
   3516065817, 3600352804, 4094571909, 275423344,
   430227734, 506948616, 659060556, 883997877,
   958139571, 1322822218, 1537002063, 1747873779,
   1955562222, 2024104815, 2227730452, 2361852424,
   2428436474, 2756734187, 3204031479, 3329325298]

def sha256_h0 : List Nat :=
  [1779033703, 3144134277, 1013904242, 2773480762,
   1359893119, 2600822924, 528734635, 1541459225]

def u32be (v : Nat) : List Nat :=
  [v / 16777216 % 256, v / 65536 % 256, v / 256 % 256, v % 256]

def u64be (v : Nat) : List Nat :=
  [v / 72057594037927936 % 256, v / 281474976710656 % 256,
   v / 1099511627776 % 256, v / 4294967296 % 256,
   v / 16777216 % 256, v / 65536 % 256, v / 256 % 256, v % 256]

def bytes_to_words : List Nat → List Nat
  | b0 :: b1 :: b2 :: b3 :: rest =>
    (b0 * 16777216 + b1 * 65536 + b2 * 256 + b3) :: bytes_to_words rest
  | _ => []

def sha256_extend_step (w : List Nat) : List Nat :=
  w ++ [(ssig1 (w.getD (w.length - 2) 0) + w.getD (w.length - 7) 0 +
    ssig0 (w.getD (w.length - 15) 0) + w.getD (w.length - 16) 0) % 4294967296]

def sha256_extend (w : List Nat) : List Nat :=
  (List.range 48).foldl (fun acc _ => sha256_extend_step acc) w

/-- One SHA-256 round on the register file `[a,b,c,d,e,f,g,h]`; `wk` is the
pair (message-schedule word, round constant). -/
def sha256_round (r : List Nat) (wk : Nat × Nat) : List Nat :=
  [(r.getD 7 0 + bsig1 (r.getD 4 0) +
      sha_ch (r.getD 4 0) (r.getD 5 0) (r.getD 6 0) + wk.2 + wk.1 +
      (bsig0 (r.getD 0 0) + sha_maj (r.getD 0 0) (r.getD 1 0) (r.getD 2 0))) %
     4294967296,
   r.getD 0 0, r.getD 1 0, r.getD 2 0,
   (r.getD 3 0 + (r.getD 7 0 + bsig1 (r.getD 4 0) +
      sha_ch (r.getD 4 0) (r.getD 5 0) (r.getD 6 0) + wk.2 + wk.1)) % 4294967296,
   r.getD 4 0, r.getD 5 0, r.getD 6 0]

def sha256_compress (h : List Nat) (block : List Nat) : List Nat :=
  List.zipWith (fun x y => (x + y) % 4294967296) h
    (((sha256_extend (bytes_to_words block)).zip sha256_k).foldl sha256_round h)

def chunk64 (l : List Nat) : List (List Nat) :=
  match l with
  | [] => []
  | _ :: rest => l.take 64 :: chunk64 (rest.drop 63)
termination_by l.length
decreasing_by
  simp only [List.length_drop, List.length_cons]
  omega

def sha256_pad (msg : List Nat) : List Nat :=
  msg ++ [0x80] ++ List.replicate ((120 - (msg.length + 1) % 64) % 64) 0 ++
    u64be (msg.length * 8)

def sha256 (msg : List Nat) : List Nat :=
  (((chunk64 (sha256_pad msg)).foldl sha256_compress sha256_h0).map u32be).flatten

/-! ### Binary model export (`export_binary`, train_dep_parser.py 1006-1094)

The weight matrix `model['weights']` (a dict of dicts) is modelled as an
association list `ws : List (String × List (String × Rat))` in dict
(insertion) order.  Two serialisation steps are taken as parameters:
`metadata_bytes` stands for the `json.dumps(metadata).encode('utf-8')`
bytes, and `f32enc : Rat → List Nat` stands for `struct.pack('<f', w)`
(4-byte IEEE-754 encoding); the layout claim is independent of both. -/

/-- `f.encode('utf-8')` for a feature key.  The trainer's feature strings
are ASCII, where UTF-8 is the identity on code points. -/
def ascii_bytes (s : String) : List Nat := s.data.map Char.toNat

/-- `struct.pack('<H', v)`. -/
def u16le (v : Nat) : List Nat := [v % 256, v / 256 % 256]

/-- `struct.pack('<I', v)` / `struct.pack_into('<I', header, off, v)`. -/
def u32le (v : Nat) : List Nat :=
  [v % 256, v / 256 % 256, v / 65536 % 256, v / 16777216 % 256]

/-- `header[off:off+len(vals)] = vals` on a 64-byte bytearray. -/
def set_slice (l : List Nat) (off : Nat) (vals : List Nat) : List Nat :=
  l.take off ++ vals ++ l.drop (off + vals.length)

/-- `b'\x00'.join(parts)`. -/
def null_join : List (List Nat) → List Nat
  | [] => []
  | [x] => x
  | x :: y :: rest => x ++ 0 :: null_join (y :: rest)

/-- `feature_list = sorted(weights.keys())`: Python sorts strings by code
point, as does the `String` order used here. -/
def feature_list (ws : List (String × List (String × Rat))) : List String :=
  (ws.map Prod.fst).mergeSort (fun a b => decide (a ≤ b))

/-- `feat_index_bytes = b'\x00'.join(f.encode('utf-8') for f in feature_list) + b'\x00'`. -/
def feat_index_bytes (ws : List (String × List (String × Rat))) : List Nat :=
  null_join ((feature_list ws).map ascii_bytes) ++ [0]

/-- `trans_to_idx = {t: i for i, t in enumerate(transitions)}` followed by
`.get(trans)`: the last index of `t` in `transitions`, if any (a dict
comprehension lets later duplicates overwrite earlier ones). -/
def trans_to_idx (transitions : List String) (t : String) : Option Nat :=
  ((transitions.enum.filter fun p => p.2 == t).map Prod.fst).getLast?

/-- The `entries` list built for one feature row: transitions present in
`trans_to_idx` with nonzero weight, in row (dict) order. -/
def sparse_entries (row : List (String × Rat)) (transitions : List String) :
    List (Nat × Rat) :=
  row.filterMap fun tw =>
    match trans_to_idx transitions tw.1 with
    | some i => if tw.2 ≠ (0 : Rat) then some (i, tw.2) else none
    | none => none

/-- The bytes appended to `weight_parts` for one feature: `u16` entry count,
then per entry `u16` column index and packed `float32` weight. -/
def feature_record (ws : List (String × List (String × Rat)))
    (transitions : List String) (f32enc : Rat → List Nat) (f : String) :
    List Nat :=
  u16le (sparse_entries ((ws.lookup f).getD []) transitions).length ++
    ((sparse_entries ((ws.lookup f).getD []) transitions).map
      fun e => u16le e.1 ++ f32enc e.2).flatten

def weight_bytes (ws : List (String × List (String × Rat)))
    (transitions : List String) (f32enc : Rat → List Nat) : List Nat :=
  ((feature_list ws).map (feature_record ws transitions f32enc)).flatten

/-- `total_entries`, accumulated over features. -/
def total_entries (ws : List (String × List (String × Rat)))
    (transitions : List String) : Nat :=
  ((feature_list ws).map fun f =>
    (sparse_entries ((ws.lookup f).getD []) transitions).length).sum

/-- `payload = metadata_bytes + feat_index_bytes + weight_bytes`. -/
def bin_payload (ws : List (String × List (String × Rat)))
    (transitions : List String) (metadata_bytes : List Nat)
    (f32enc : Rat → List Nat) : List Nat :=
  metadata_bytes ++ feat_index_bytes ws ++ weight_bytes ws transitions f32enc

/-- The 64-byte header before the checksum is written: `bytearray(64)`
followed by the magic, version, endianness, model-type and six
`struct.pack_into('<I', ...)` stores. -/
def bin_header_magic : List Nat :=
  ((((set_slice (List.replicate 64 0) 0
    [0x54, 0x54, 0x30, 0x31]).set 4 1).set 5 1).set 6 0).set 7 2

def bin_header_pre (fc tc te ml fl wl : Nat) : List Nat :=
  set_slice (set_slice (set_slice (set_slice (set_slice (set_slice
    bin_header_magic 8 (u32le fc)) 12 (u32le tc)) 16 (u32le te))
    20 (u32le ml)) 24 (u32le fl)) 28 (u32le wl)

/-- The full header: `header[32:64] = checksum`. -/
def bin_header (fc tc te ml fl wl : Nat) (checksum : List Nat) : List Nat :=
  set_slice (bin_header_pre fc tc te ml fl wl) 32 checksum

/-- The bytes written to the output file: header, then payload. -/
def export_binary (ws : List (String × List (String × Rat)))
    (transitions : List String) (metadata_bytes : List Nat)
    (f32enc : Rat → List Nat) : List Nat :=
  bin_header (feature_list ws).length transitions.length
      (total_entries ws transitions) metadata_bytes.length
      (feat_index_bytes ws).length (weight_bytes ws transitions f32enc).length
      (sha256 (bin_payload ws transitions metadata_bytes f32enc)) ++
    bin_payload ws transitions metadata_bytes f32enc

/-! ## Theorems -/

/-- C2: `dynamic_oracle_cost` computes exactly the arc-eager cost table
written in the spec.  For a configuration whose stack top is a non-ROOT
token (`0 < s0`, the scope under which the spec states the SHIFT and REDUCE
rows), every transition's cost equals the table entry: SHIFT costs
`[gold_heads[s0] = b0]` plus the number of buffer tokens `j` with
`gold_heads[j] = s0` and `heads[j]` unset; REDUCE costs the number of
buffer tokens `j` with `gold_heads[j] = s0`; LEFT-l costs 0 on exact
head-and-label match, else 1, and `∞` when `s0 ≤ 0`; RIGHT-l costs 0 on
exact match, else 1, and `∞` when `b0 < 0`. -/
theorem dynamic_oracle_cost_eq_spec_table (st : ArcEagerState)
    (gold_heads : List Int) (gold_labels : List String) (h : 0 < st.s0) :
    ∀ t, dynamic_oracle_cost st t gold_heads gold_labels =
      spec_cost_table st t gold_heads gold_labels := by
  intro t
  cases t with
  | SHIFT => simp [dynamic_oracle_cost, spec_cost_table, h]
  | REDUCE => simp [dynamic_oracle_cost, spec_cost_table, h]
  | LEFT label =>
    simp only [dynamic_oracle_cost, spec_cost_table]
    split_ifs <;> simp_all
  | RIGHT label =>
    simp only [dynamic_oracle_cost, spec_cost_table]
    split_ifs <;> simp_all

/-- Witness for C2: on the concrete counterexample configuration (whose
stack top is token 1), the cost of every transition of a small transition
set equals the spec table entry. -/
theorem dynamic_oracle_cost_eq_spec_table_witness :
    0 < c1_state.s0 ∧
    ∀ t, dynamic_oracle_cost c1_state t c1_gold_heads c1_gold_labels =
      spec_cost_table c1_state t c1_gold_heads c1_gold_labels :=
  ⟨by decide,
    dynamic_oracle_cost_eq_spec_table c1_state c1_gold_heads c1_gold_labels
      (by decide)⟩

/-- C1 (amended): whenever the static oracle returns a transition on a
configuration whose buffer holds only non-ROOT tokens (true of every
reachable configuration), that transition has dynamic-oracle cost 0 unless
it is SHIFT; a returned SHIFT costs the number of buffer tokens whose gold
head is `s0` and whose head is still unset, which can be positive. -/
theorem static_oracle_cost (st : ArcEagerState) (gold_heads : List Int)
    (gold_labels : List String) (t : Transition)
    (hbuf : ∀ j ∈ st.buffer, 0 < j)
    (h : static_oracle st gold_heads gold_labels = some t) :
    dynamic_oracle_cost st t gold_heads gold_labels =
      some (if t = Transition.SHIFT then
        (if 0 < st.s0 then
          (st.buffer.filter fun j =>
            decide (gold_heads.getD j (-1) = st.s0 ∧ st.heads.getD j (-1) = -1)).length
        else 0)
      else 0) := by
  unfold static_oracle at h
  split at h
  case isTrue h1 =>
    obtain ⟨hs, hb, hg⟩ := h1
    cases h
    have hne : ¬ (Transition.LEFT (gold_labels.getD st.s0.toNat "") =
        Transition.SHIFT) := by simp
    have hcond : gold_heads.getD st.s0.toNat (-1) = st.b0 ∧ True := ⟨hg, trivial⟩
    rw [if_neg hne]
    simp only [dynamic_oracle_cost]
    rw [if_neg (not_le.mpr hs), if_pos hcond]
  case isFalse h1 =>
    split at h
    case isTrue h2 =>
      obtain ⟨hs, hb, hg⟩ := h2
      cases h
      have hne : ¬ (Transition.RIGHT (gold_labels.getD st.b0.toNat "") =
          Transition.SHIFT) := by simp
      have hcond : gold_heads.getD st.b0.toNat (-1) = st.s0 ∧ True := ⟨hg, trivial⟩
      rw [if_neg hne]
      simp only [dynamic_oracle_cost]
      rw [if_neg (not_lt.mpr (le_of_lt hb)), if_pos hcond]
    case isFalse h2 =>
      split at h
      case isTrue h3 =>
        obtain ⟨hs, hhd, hany⟩ := h3
        cases h
        have hnil : (st.buffer.filter fun j =>
            decide (gold_heads.getD j (-1) = st.s0)) = [] := by
          rw [List.filter_eq_nil_iff]
          intro j hj hc
          exact hany (List.any_eq_true.mpr ⟨j, hj, hc⟩)
        rw [if_neg (show ¬ (Transition.REDUCE = Transition.SHIFT) by decide)]
        simp only [dynamic_oracle_cost]
        rw [if_pos hs, hnil]
        rfl
      case isFalse h3 =>
        split at h
        case isTrue h4 =>
          cases h
          rw [if_pos (show Transition.SHIFT = Transition.SHIFT from rfl)]
          by_cases hs : 0 < st.s0
          · have hb : 0 < st.b0 := by
              cases hbq : st.buffer with
              | nil => exact absurd hbq h4
              | cons x xs =>
                have := hbuf x (by simp [hbq])
                simp only [ArcEagerState.b0, hbq]
                exact_mod_cast this
            have hg : ¬ gold_heads.getD st.s0.toNat (-1) = st.b0 := fun hc =>
              h1 ⟨hs, hb, hc⟩
            rw [if_pos hs]
            simp only [dynamic_oracle_cost]
            rw [if_pos hs, if_neg hg]
            exact congrArg some (Nat.zero_add _)
          · rw [if_neg hs]
            simp only [dynamic_oracle_cost]
            rw [if_neg hs]
        case isFalse h4 =>
          split at h
          case isTrue h5 =>
            obtain ⟨hs, hhd⟩ := h5
            cases h
            push_neg at h4
            rw [if_neg (show ¬ (Transition.REDUCE = Transition.SHIFT) by decide)]
            simp only [dynamic_oracle_cost]
            rw [if_pos hs, h4]
            rfl
          case isFalse h5 => exact absurd h (by simp)

/-- Counterexample to C1 as stated: for the projective 3-token gold tree
`heads = [0,3,1]` (zero crossing arcs by the crossing test of
`measure_non_projective`), the configuration reached from the initial one
by the static oracle's own first move RIGHT-root makes the static oracle
return SHIFT, and that SHIFT has dynamic-oracle cost 1, not 0. -/
theorem static_oracle_shift_cost_one :
    non_projective_arc_count c1_gold_heads 3 = 0 ∧
    static_oracle (ArcEagerState.init 3) c1_gold_heads c1_gold_labels =
      some (Transition.RIGHT "root") ∧
    static_oracle c1_state c1_gold_heads c1_gold_labels = some Transition.SHIFT ∧
    dynamic_oracle_cost c1_state Transition.SHIFT c1_gold_heads c1_gold_labels =
      some 1 :=
  ⟨by decide, by decide, by decide, by decide⟩

/-- Witness for C1 (amended): instantiated at the counterexample
configuration, where the SHIFT branch of the conclusion is exercised. -/
theorem static_oracle_cost_witness :
    (∀ j ∈ c1_state.buffer, 0 < j) ∧
    dynamic_oracle_cost c1_state Transition.SHIFT c1_gold_heads c1_gold_labels =
      some (if Transition.SHIFT = Transition.SHIFT then
        (if 0 < c1_state.s0 then
          (c1_state.buffer.filter fun j =>
            decide (c1_gold_heads.getD j (-1) = c1_state.s0 ∧
              c1_state.heads.getD j (-1) = -1)).length
        else 0)
      else 0) :=
  ⟨by decide,
    static_oracle_cost c1_state c1_gold_heads c1_gold_labels Transition.SHIFT
      (by decide) (by decide)⟩


theorem apply_shift_fields (st : ArcEagerState) (b : Nat) (rest : List Nat)
    (hb : st.buffer = b :: rest) :
    st.apply Transition.SHIFT =
      { st with stack := st.stack ++ [b], buffer := rest } := by
  simp only [ArcEagerState.apply]
  rw [hb]

theorem apply_reduce_fields (st : ArcEagerState) :
    st.apply Transition.REDUCE = { st with stack := st.stack.dropLast } := rfl

theorem apply_left_fields (st : ArcEagerState) (l : String) (dep bh : Nat)
    (brest : List Nat) (hd : st.stack.getLast? = some dep)
    (hb : st.buffer = bh :: brest) :
    (st.apply (Transition.LEFT l)).stack = st.stack.dropLast ∧
    (st.apply (Transition.LEFT l)).buffer = bh :: brest ∧
    (st.apply (Transition.LEFT l)).heads = st.heads.set dep (bh : Int) ∧
    (st.apply (Transition.LEFT l)).labels = st.labels.set dep (some l) := by
  refine ⟨?_, ?_, ?_, ?_⟩ <;> simp only [ArcEagerState.apply, hd, hb] <;>
    split <;> rfl

theorem apply_right_fields (st : ArcEagerState) (l : String) (hd0 dep : Nat)
    (brest : List Nat) (hd : st.stack.getLast? = some hd0)
    (hb : st.buffer = dep :: brest) :
    (st.apply (Transition.RIGHT l)).stack = st.stack ++ [dep] ∧
    (st.apply (Transition.RIGHT l)).buffer = brest ∧
    (st.apply (Transition.RIGHT l)).heads = st.heads.set dep (hd0 : Int) ∧
    (st.apply (Transition.RIGHT l)).labels = st.labels.set dep (some l) := by
  refine ⟨?_, ?_, ?_, ?_⟩ <;> simp only [ArcEagerState.apply, hd, hb] <;>
    split <;> rfl
/-- Auxiliary: dropping the last element keeps the head when the last
element is not the head value. -/
theorem head_dropLast_of_getLast_ne (l : List Nat) (a : Nat)
    (h : l.head? = some a) (hne : l.getLast? ≠ some a) :
    l.dropLast.head? = some a := by
  match l with
  | [] => simp at h
  | [x] =>
    simp at h
    simp [h] at hne
  | x :: y :: rest =>
    simp at h
    simp [List.dropLast, h]

/-- SHIFT is offered only when the buffer is non-empty. -/
theorem shift_mem_valid (st : ArcEagerState) (T : List Transition)
    (h : Transition.SHIFT ∈ st.get_valid_transitions T) : st.buffer ≠ [] := by
  unfold ArcEagerState.get_valid_transitions at h
  simp only [List.mem_append] at h
  rcases h with ((h | h) | h) | h
  · intro hb
    rw [if_pos hb] at h
    simp at h
  · split at h <;> simp at h
  · split at h
    · rename_i hc
      exact fun hb => absurd hb hc.1
    · simp at h
  · split at h
    · rename_i hc
      exact hc
    · simp at h

/-- REDUCE is offered only when the stack top is a non-ROOT token that
already has a head. -/
theorem reduce_mem_valid (st : ArcEagerState) (T : List Transition)
    (h : Transition.REDUCE ∈ st.get_valid_transitions T) :
    0 < st.s0 ∧ st.heads.getD st.s0.toNat (-1) ≠ -1 := by
  unfold ArcEagerState.get_valid_transitions at h
  simp only [List.mem_append] at h
  rcases h with ((h | h) | h) | h
  · split at h <;> simp at h
  · split at h
    · rename_i hc
      exact hc
    · simp at h
  · split at h
    · simp only [List.mem_filter] at h
      simp at h
    · simp at h
  · split at h
    · simp only [List.mem_filter] at h
      simp at h
    · simp at h

/-- LEFT-l is offered only when the buffer is non-empty and the stack top is
a headless non-ROOT token. -/
theorem left_mem_valid (st : ArcEagerState) (T : List Transition) (l : String)
    (h : Transition.LEFT l ∈ st.get_valid_transitions T) :
    st.buffer ≠ [] ∧ 0 < st.s0 ∧ st.heads.getD st.s0.toNat (-1) = -1 := by
  unfold ArcEagerState.get_valid_transitions at h
  simp only [List.mem_append] at h
  rcases h with ((h | h) | h) | h
  · split at h <;> simp at h
  · split at h <;> simp at h
  · split at h
    · rename_i hc
      exact hc
    · simp at h
  · split at h
    · simp only [List.mem_filter] at h
      simp at h
    · simp at h

/-- RIGHT-l is offered only when the buffer is non-empty. -/
theorem right_mem_valid (st : ArcEagerState) (T : List Transition) (l : String)
    (h : Transition.RIGHT l ∈ st.get_valid_transitions T) : st.buffer ≠ [] := by
  unfold ArcEagerState.get_valid_transitions at h
  simp only [List.mem_append] at h
  rcases h with ((h | h) | h) | h
  · intro hb
    rw [if_pos hb] at h
    simp at h
  · split at h <;> simp at h
  · split at h
    · simp only [List.mem_filter] at h
      simp at h
    · simp at h
  · split at h
    · rename_i hc
      exact hc
    · simp at h
/-- One valid transition preserves the ROOT invariant. -/
theorem root_inv_apply (st : ArcEagerState) (T : List Transition)
    (t : Transition) (hinv : root_inv st)
    (hv : t ∈ st.get_valid_transitions T) : root_inv (st.apply t) := by
  obtain ⟨hne, hhd, htl, hbuf, hh0, hl0⟩ := hinv
  cases t with
  | SHIFT =>
    have hb := shift_mem_valid st T hv
    cases hbq : st.buffer with
    | nil => exact absurd hbq hb
    | cons b rest =>
      rw [apply_shift_fields st b rest hbq]
      refine ⟨by simp [hne], ?_, ?_, ?_, hh0, hl0⟩
      · cases hsq : st.stack with
        | nil => exact absurd hsq hne
        | cons a s => simp_all
      · intro x hx
        cases hsq : st.stack with
        | nil => exact absurd hsq hne
        | cons a s =>
          rw [hsq] at hx
          simp only [List.cons_append, List.tail_cons, List.mem_append,
            List.mem_singleton] at hx
          rcases hx with hx | hx
          · exact htl x (by rw [hsq]; exact hx)
          · subst hx
            exact hbuf x (by rw [hbq]; simp)
      · intro x hx
        exact hbuf x (by rw [hbq]; simp [hx])
  | REDUCE =>
    obtain ⟨hs0, _⟩ := reduce_mem_valid st T hv
    rw [apply_reduce_fields st]
    have hlast : st.stack.getLast? ≠ some 0 := by
      intro hc
      simp only [ArcEagerState.s0, hc] at hs0
      simp at hs0
    refine ⟨?_, head_dropLast_of_getLast_ne _ _ hhd hlast, ?_, hbuf, hh0, hl0⟩
    · intro hc
      rw [← List.head?_eq_none_iff] at hc
      rw [head_dropLast_of_getLast_ne _ _ hhd hlast] at hc
      simp at hc
    · intro x hx
      cases hsq : st.stack with
      | nil => exact absurd hsq hne
      | cons a s =>
        rw [hsq] at hx
        cases s with
        | nil => simp at hx
        | cons c s2 =>
          simp only [List.dropLast_cons₂, List.tail_cons] at hx
          exact htl x (by
            rw [hsq]
            exact List.mem_of_mem_dropLast hx)
  | LEFT label =>
    obtain ⟨hb, hs0, _⟩ := left_mem_valid st T label hv
    have hlast : st.stack.getLast? ≠ some 0 := by
      intro hc
      simp only [ArcEagerState.s0, hc] at hs0
      simp at hs0
    have hdep : ∃ dep, st.stack.getLast? = some dep ∧ 0 < dep := by
      cases hq : st.stack.getLast? with
      | none => rw [List.getLast?_eq_none_iff] at hq; exact absurd hq hne
      | some d =>
        refine ⟨d, rfl, ?_⟩
        simp only [ArcEagerState.s0, hq] at hs0
        exact_mod_cast hs0
    obtain ⟨dep, hdq, hdpos⟩ := hdep
    cases hbq : st.buffer with
    | nil => exact absurd hbq hb
    | cons bh brest =>
      obtain ⟨f1, f2, f3, f4⟩ := apply_left_fields st label dep bh brest hdq hbq
      refine ⟨?_, ?_, ?_, ?_, ?_, ?_⟩
      · rw [f1]
        intro hc
        rw [← List.head?_eq_none_iff,
          head_dropLast_of_getLast_ne _ _ hhd hlast] at hc
        simp at hc
      · rw [f1]
        exact head_dropLast_of_getLast_ne _ _ hhd hlast
      · rw [f1]
        intro x hx
        cases hsq : st.stack with
        | nil => exact absurd hsq hne
        | cons a s =>
          rw [hsq] at hx
          cases s with
          | nil => simp at hx
          | cons c s2 =>
            simp only [List.dropLast_cons₂, List.tail_cons] at hx
            exact htl x (by rw [hsq]; exact List.mem_of_mem_dropLast hx)
      · rw [f2]
        intro x hx
        exact hbuf x (by rw [hbq]; exact hx)
      · rw [f3, List.getElem?_set_ne (by omega)]
        exact hh0
      · rw [f4, List.getElem?_set_ne (by omega)]
        exact hl0
  | RIGHT label =>
    have hb := right_mem_valid st T label hv
    have hdep : ∃ h0, st.stack.getLast? = some h0 := by
      cases hq : st.stack.getLast? with
      | none => rw [List.getLast?_eq_none_iff] at hq; exact absurd hq hne
      | some d => exact ⟨d, rfl⟩
    obtain ⟨hd0, hdq⟩ := hdep
    cases hbq : st.buffer with
    | nil => exact absurd hbq hb
    | cons dep brest =>
      have hdeppos : 0 < dep := hbuf dep (by rw [hbq]; simp)
      obtain ⟨f1, f2, f3, f4⟩ := apply_right_fields st label hd0 dep brest hdq hbq
      refine ⟨?_, ?_, ?_, ?_, ?_, ?_⟩
      · rw [f1]; simp [hne]
      · rw [f1]
        cases hsq : st.stack with
        | nil => exact absurd hsq hne
        | cons a s => simp_all
      · rw [f1]
        intro x hx
        cases hsq : st.stack with
        | nil => exact absurd hsq hne
        | cons a s =>
          rw [hsq] at hx
          simp only [List.cons_append, List.tail_cons, List.mem_append,
            List.mem_singleton] at hx
          rcases hx with hx | hx
          · exact htl x (by rw [hsq]; exact hx)
          · subst hx; exact hdeppos
      · rw [f2]
        intro x hx
        exact hbuf x (by rw [hbq]; simp [hx])
      · rw [f3, List.getElem?_set_ne (by omega)]
        exact hh0
      · rw [f4, List.getElem?_set_ne (by omega)]
        exact hl0
/-- The ROOT invariant is preserved along any valid chain. -/
theorem root_inv_run (T : List Transition) (ts : List Transition) :
    ∀ st : ArcEagerState, root_inv st → valid_chain T st ts = true →
      root_inv (run_transitions st ts) := by
  induction ts with
  | nil => intro st hinv _; exact hinv
  | cons t rest ih =>
    intro st hinv hch
    unfold valid_chain at hch
    rw [Bool.and_eq_true, decide_eq_true_eq] at hch
    exact ih (st.apply t) (root_inv_apply st T t hinv hch.1) hch.2

/-- The initial configuration satisfies the ROOT invariant. -/
theorem root_inv_init (n : Nat) : root_inv (ArcEagerState.init n) := by
  refine ⟨by simp [ArcEagerState.init], by simp [ArcEagerState.init], ?_, ?_, ?_, ?_⟩
  · simp [ArcEagerState.init]
  · intro x hx
    rw [ArcEagerState.init] at hx
    simp only [List.mem_range'] at hx
    omega
  · simp [ArcEagerState.init]
  · simp [ArcEagerState.init]

/-- C9: the artificial ROOT token 0 pushed by `ArcEagerState.init` is never
popped.  After any chain of transitions each of which is valid
(per `get_valid_transitions`) in the state where it is applied, the stack
is nonempty with 0 at the bottom and only positive tokens above it, and
ROOT never receives a head or a label. -/
theorem root_never_popped (n : Nat) (T : List Transition)
    (ts : List Transition)
    (h : valid_chain T (ArcEagerState.init n) ts = true) :
    (run_transitions (ArcEagerState.init n) ts).stack ≠ [] ∧
    (run_transitions (ArcEagerState.init n) ts).stack.head? = some 0 ∧
    (∀ x ∈ (run_transitions (ArcEagerState.init n) ts).stack.tail, 0 < x) ∧
    (run_transitions (ArcEagerState.init n) ts).heads[0]? = some (-1) ∧
    (run_transitions (ArcEagerState.init n) ts).labels[0]? = some none := by
  obtain ⟨h1, h2, h3, _, h5, h6⟩ := root_inv_run T ts _ (root_inv_init n) h
  exact ⟨h1, h2, h3, h5, h6⟩

/-- Witness for C9: a concrete valid chain on a 2-token sentence. -/
theorem root_never_popped_witness :
    valid_chain [Transition.SHIFT, Transition.REDUCE, Transition.LEFT "det",
        Transition.RIGHT "root"]
      (ArcEagerState.init 2) [Transition.SHIFT, Transition.LEFT "det"] = true ∧
    ((run_transitions (ArcEagerState.init 2)
        [Transition.SHIFT, Transition.LEFT "det"]).stack ≠ [] ∧
      (run_transitions (ArcEagerState.init 2)
        [Transition.SHIFT, Transition.LEFT "det"]).stack.head? = some 0 ∧
      (∀ x ∈ (run_transitions (ArcEagerState.init 2)
        [Transition.SHIFT, Transition.LEFT "det"]).stack.tail, 0 < x) ∧
      (run_transitions (ArcEagerState.init 2)
        [Transition.SHIFT, Transition.LEFT "det"]).heads[0]? = some (-1) ∧
      (run_transitions (ArcEagerState.init 2)
        [Transition.SHIFT, Transition.LEFT "det"]).labels[0]? = some none) :=
  ⟨by decide,
    root_never_popped 2 [Transition.SHIFT, Transition.REDUCE,
      Transition.LEFT "det", Transition.RIGHT "root"]
      [Transition.SHIFT, Transition.LEFT "det"] (by decide)⟩
theorem update_feat_step_eq (p : Perceptron) (t g f : String) :
    (update_feat p t g f).step = p.step := rfl

/-- `update_feat` leaves every cell outside feature `f`, columns
`{truth, guess}`, unchanged. -/
theorem update_feat_preserve (p : Perceptron) (t g f x c : String)
    (h : x ≠ f ∨ (c ≠ t ∧ c ≠ g)) :
    (update_feat p t g f).weights x c = p.weights x c ∧
    (update_feat p t g f).totals x c = p.totals x c ∧
    (update_feat p t g f).tstamps x c = p.tstamps x c ∧
    (update_feat p t g f).live x c = p.live x c := by
  have h1 : ¬(x = f ∧ c = t) := by tauto
  have h2 : ¬(x = f ∧ c = g) := by tauto
  refine ⟨?_, ?_, ?_, ?_⟩ <;> simp [update_feat, upd2, h1, h2]

/-- Effect of `update_feat` at its own feature when `truth ≠ guess`. -/
theorem update_feat_at (p : Perceptron) (t g f : String) (hne : t ≠ g) :
    (update_feat p t g f).weights f t = p.weights f t + 1 ∧
    (update_feat p t g f).weights f g = p.weights f g - 1 ∧
    (update_feat p t g f).totals f t =
      p.totals f t + ((p.step : Rat) - (p.tstamps f t : Rat)) * p.weights f t ∧
    (update_feat p t g f).totals f g =
      p.totals f g + ((p.step : Rat) - (p.tstamps f g : Rat)) * p.weights f g ∧
    (update_feat p t g f).tstamps f t = p.step ∧
    (update_feat p t g f).tstamps f g = p.step ∧
    (update_feat p t g f).live f t = true ∧
    (update_feat p t g f).live f g = true := by
  refine ⟨?_, ?_, ?_, ?_, ?_, ?_, ?_, ?_⟩ <;>
    simp [update_feat, upd2, hne, Ne.symm hne]

theorem fold_update_step (t g : String) (l : List String) (p : Perceptron) :
    (l.foldl (fun r x => update_feat r t g x) p).step = p.step := by
  induction l generalizing p with
  | nil => rfl
  | cons x xs ih => exact ih (update_feat p t g x)

/-- Folding `update_feat` over a feature list leaves untouched cells
unchanged. -/
theorem fold_update_preserve (t g : String) (l : List String)
    (x c : String) (h : x ∉ l ∨ (c ≠ t ∧ c ≠ g)) (p : Perceptron) :
    (l.foldl (fun r y => update_feat r t g y) p).weights x c = p.weights x c ∧
    (l.foldl (fun r y => update_feat r t g y) p).totals x c = p.totals x c ∧
    (l.foldl (fun r y => update_feat r t g y) p).tstamps x c = p.tstamps x c ∧
    (l.foldl (fun r y => update_feat r t g y) p).live x c = p.live x c := by
  induction l generalizing p with
  | nil => exact ⟨rfl, rfl, rfl, rfl⟩
  | cons y ys ih =>
    have hxy : x ≠ y ∨ (c ≠ t ∧ c ≠ g) := by
      rcases h with h | h
      · exact Or.inl fun hc => h (by simp [hc])
      · exact Or.inr h
    have htail : x ∉ ys ∨ (c ≠ t ∧ c ≠ g) := by
      rcases h with h | h
      · exact Or.inl fun hc => h (by simp [hc])
      · exact Or.inr h
    obtain ⟨e1, e2, e3, e4⟩ := update_feat_preserve p t g y x c hxy
    obtain ⟨f1, f2, f3, f4⟩ := ih htail (update_feat p t g y)
    exact ⟨by rw [List.foldl_cons, f1, e1], by rw [List.foldl_cons, f2, e2],
      by rw [List.foldl_cons, f3, e3], by rw [List.foldl_cons, f4, e4]⟩

/-- Folding `update_feat` over a duplicate-free feature list acts exactly
once on each member feature. -/
theorem fold_update_at (t g : String) (hne : t ≠ g) (l : List String)
    (hnd : l.Nodup) (f : String) (hf : f ∈ l) (p : Perceptron) :
    (l.foldl (fun r y => update_feat r t g y) p).weights f t = p.weights f t + 1 ∧
    (l.foldl (fun r y => update_feat r t g y) p).weights f g = p.weights f g - 1 ∧
    (l.foldl (fun r y => update_feat r t g y) p).totals f t =
      p.totals f t + ((p.step : Rat) - (p.tstamps f t : Rat)) * p.weights f t ∧
    (l.foldl (fun r y => update_feat r t g y) p).totals f g =
      p.totals f g + ((p.step : Rat) - (p.tstamps f g : Rat)) * p.weights f g ∧
    (l.foldl (fun r y => update_feat r t g y) p).tstamps f t = p.step ∧
    (l.foldl (fun r y => update_feat r t g y) p).tstamps f g = p.step ∧
    (l.foldl (fun r y => update_feat r t g y) p).live f t = true ∧
    (l.foldl (fun r y => update_feat r t g y) p).live f g = true := by
  induction l generalizing p with
  | nil => simp at hf
  | cons x xs ih =>
    rw [List.nodup_cons] at hnd
    rcases List.mem_cons.mp hf with hfx | hfxs
    · subst hfx
      have hnot : f ∉ xs := hnd.1
      obtain ⟨a1, a2, a3, a4, a5, a6, a7, a8⟩ := update_feat_at p t g f hne
      have pres : ∀ c, (xs.foldl (fun r y => update_feat r t g y)
          (update_feat p t g f)).weights f c = (update_feat p t g f).weights f c ∧
          (xs.foldl (fun r y => update_feat r t g y)
            (update_feat p t g f)).totals f c = (update_feat p t g f).totals f c ∧
          (xs.foldl (fun r y => update_feat r t g y)
            (update_feat p t g f)).tstamps f c = (update_feat p t g f).tstamps f c ∧
          (xs.foldl (fun r y => update_feat r t g y)
            (update_feat p t g f)).live f c = (update_feat p t g f).live f c :=
        fun c => fold_update_preserve t g xs f c (Or.inl hnot) _
      refine ⟨?_, ?_, ?_, ?_, ?_, ?_, ?_, ?_⟩
      · rw [List.foldl_cons, (pres t).1, a1]
      · rw [List.foldl_cons, (pres g).1, a2]
      · rw [List.foldl_cons, (pres t).2.1, a3]
      · rw [List.foldl_cons, (pres g).2.1, a4]
      · rw [List.foldl_cons, (pres t).2.2.1, a5]
      · rw [List.foldl_cons, (pres g).2.2.1, a6]
      · rw [List.foldl_cons, (pres t).2.2.2, a7]
      · rw [List.foldl_cons, (pres g).2.2.2, a8]
    · have hfx : f ≠ x := fun hc => hnd.1 (hc ▸ hfxs)
      obtain ⟨e1, e2, e3, e4⟩ := update_feat_preserve p t g x f t (Or.inl hfx)
      obtain ⟨d1, d2, d3, d4⟩ := update_feat_preserve p t g x f g (Or.inl hfx)
      obtain ⟨b1, b2, b3, b4, b5, b6, b7, b8⟩ :=
        ih hnd.2 hfxs (update_feat p t g x)
      exact ⟨by rw [List.foldl_cons, b1, e1], by rw [List.foldl_cons, b2, d1],
        by rw [List.foldl_cons, b3, e2, e3, e1]; rfl,
        by rw [List.foldl_cons, b4, d2, d3, d1]; rfl,
        by rw [List.foldl_cons, b5]; rfl, by rw [List.foldl_cons, b6]; rfl,
        by rw [List.foldl_cons, b7], by rw [List.foldl_cons, b8]⟩
/-- C3: `AveragedPerceptron.update` increments the step counter, is a
no-op otherwise when truth = guess, and otherwise, for each (distinct)
feature, first folds the pending interval `(step - tstamp) * weight` into
`_totals` and restamps `_tstamps` for both the truth and guess cells, then
moves the truth weight up by 1 and the guess weight down by 1, touching no
other cell; `average_weights` steps once more and returns, for exactly the
live cells, `(totals + (step - tstamp) * weight) / step`, dropping zeros. -/
theorem perceptron_update_average (p : Perceptron) (truth guess : String)
    (fs : List String) :
    (p.update truth guess fs).step = p.step + 1 ∧
    (truth = guess → p.update truth guess fs = { p with step := p.step + 1 }) ∧
    (truth ≠ guess → fs.Nodup →
      (∀ f ∈ fs,
        (p.update truth guess fs).weights f truth = p.weights f truth + 1 ∧
        (p.update truth guess fs).weights f guess = p.weights f guess - 1 ∧
        (p.update truth guess fs).totals f truth =
          p.totals f truth +
            ((p.step : Rat) + 1 - (p.tstamps f truth : Rat)) * p.weights f truth ∧
        (p.update truth guess fs).totals f guess =
          p.totals f guess +
            ((p.step : Rat) + 1 - (p.tstamps f guess : Rat)) * p.weights f guess ∧
        (p.update truth guess fs).tstamps f truth = p.step + 1 ∧
        (p.update truth guess fs).tstamps f guess = p.step + 1) ∧
      (∀ f c, f ∉ fs ∨ (c ≠ truth ∧ c ≠ guess) →
        (p.update truth guess fs).weights f c = p.weights f c ∧
        (p.update truth guess fs).totals f c = p.totals f c ∧
        (p.update truth guess fs).tstamps f c = p.tstamps f c)) ∧
    (p.average_weights.1.step = p.step + 1 ∧
      ∀ f c, p.average_weights.2 f c =
        if p.live f c = true then
          (if (p.totals f c +
              ((p.step : Rat) + 1 - (p.tstamps f c : Rat)) * p.weights f c) /
              ((p.step : Rat) + 1) ≠ 0 then
            some ((p.totals f c +
              ((p.step : Rat) + 1 - (p.tstamps f c : Rat)) * p.weights f c) /
              ((p.step : Rat) + 1))
          else none)
        else none) := by
  refine ⟨?_, ?_, ?_, ?_, ?_⟩
  · unfold Perceptron.update
    split
    · rfl
    · exact fold_update_step truth guess fs { p with step := p.step + 1 }
  · intro h
    simp [Perceptron.update, h]
  · intro hne hnd
    constructor
    · intro f hf
      have key := fold_update_at truth guess hne fs hnd f hf
        { p with step := p.step + 1 }
      obtain ⟨b1, b2, b3, b4, b5, b6, _, _⟩ := key
      have hupd : p.update truth guess fs =
          fs.foldl (fun r y => update_feat r truth guess y)
            { p with step := p.step + 1 } := by
        simp [Perceptron.update, hne]
      refine ⟨?_, ?_, ?_, ?_, ?_, ?_⟩
      · rw [hupd, b1]
      · rw [hupd, b2]
      · rw [hupd, b3]; push_cast; ring
      · rw [hupd, b4]; push_cast; ring
      · rw [hupd, b5]
      · rw [hupd, b6]
    · intro f c hfc
      have key := fold_update_preserve truth guess fs f c hfc
        { p with step := p.step + 1 }
      have hupd : p.update truth guess fs =
          fs.foldl (fun r y => update_feat r truth guess y)
            { p with step := p.step + 1 } := by
        simp [Perceptron.update, hne]
      exact ⟨by rw [hupd, key.1], by rw [hupd, key.2.1], by rw [hupd, key.2.2.1]⟩
  · rfl
  · intro f c
    simp only [Perceptron.average_weights]
    push_cast
    rfl

/-- Witness for C3: on an empty perceptron, updating with truth `"A"`,
guess `"B"` over features `["f1", "f2"]` raises the truth weight of `"f1"`
by one. -/
theorem perceptron_update_average_witness :
    ("A" : String) ≠ "B" ∧ (["f1", "f2"] : List String).Nodup ∧
    (c3_p0.update "A" "B" ["f1", "f2"]).weights "f1" "A" =
      c3_p0.weights "f1" "A" + 1 :=
  ⟨by decide, by decide,
    ((((perceptron_update_average c3_p0 "A" "B" ["f1", "f2"]).2.2.1
      (by decide) (by decide)).1 "f1" (by decide)).1)⟩
/-- `best_tag` returns a member achieving the maximum count; a later key
replaces the best only on a strictly greater count. -/
theorem best_tag_max (counts : String → Nat) (t : String) (ts : List String) :
    ∃ r, best_tag counts (t :: ts) = some r ∧ r ∈ t :: ts ∧
      ∀ v ∈ t :: ts, counts v ≤ counts r := by
  induction ts generalizing t with
  | nil => exact ⟨t, rfl, by simp, by simp⟩
  | cons u us ih =>
    have key : best_tag counts (t :: u :: us) =
        best_tag counts ((if counts t < counts u then u else t) :: us) := by
      simp [best_tag]
    obtain ⟨r, hr, hmem, hmax⟩ := ih (if counts t < counts u then u else t)
    have hstep : counts t ≤ counts (if counts t < counts u then u else t) ∧
        counts u ≤ counts (if counts t < counts u then u else t) := by
      split_ifs with h
      · exact ⟨le_of_lt h, le_refl _⟩
      · exact ⟨le_refl _, not_lt.mp h⟩
    refine ⟨r, key.trans hr, ?_, ?_⟩
    · rcases List.mem_cons.mp hmem with h1 | h1
      · split_ifs at h1 <;> simp [h1]
      · simp [List.mem_cons, h1]
    · intro v hv
      rcases List.mem_cons.mp hv with h1 | h1
      · subst h1
        exact le_trans hstep.1 (hmax _ (by simp))
      · rcases List.mem_cons.mp h1 with h2 | h2
        · subst h2
          exact le_trans hstep.2 (hmax _ (by simp))
        · exact hmax v (by simp [h2])
theorem mem_first_dedup_foldl (l : List String) (x : String) :
    ∀ acc, (x ∈ l.foldl (fun acc t => if t ∈ acc then acc else acc ++ [t]) acc ↔
      x ∈ acc ∨ x ∈ l) := by
  induction l with
  | nil => intro acc; simp
  | cons y ys ih =>
    intro acc
    rw [List.foldl_cons, ih]
    constructor
    · rintro (hx | hx)
      · split_ifs at hx with hy
        · exact Or.inl hx
        · rcases List.mem_append.mp hx with h1 | h1
          · exact Or.inl h1
          · simp at h1
            simp [h1]
      · simp [hx]
    · rintro (hx | hx)
      · left
        split_ifs with hy
        · exact hx
        · exact List.mem_append.mpr (Or.inl hx)
      · rcases List.mem_cons.mp hx with h1 | h1
        · left
          split_ifs with hy
          · exact h1 ▸ hy
          · exact List.mem_append.mpr (Or.inr (by simp [h1]))
        · simp [h1]

theorem mem_first_dedup (l : List String) (x : String) :
    x ∈ first_dedup l ↔ x ∈ l := by
  rw [first_dedup, mem_first_dedup_foldl]
  simp

theorem foldr_max_le (l : List Nat) (b : Nat) (h : ∀ x ∈ l, x ≤ b) :
    l.foldr max 0 ≤ b := by
  induction l with
  | nil => exact Nat.zero_le b
  | cons x xs ih =>
    rw [List.foldr_cons]
    exact max_le (h x (by simp)) (ih fun y hy => h y (by simp [hy]))

theorem foldr_max_eq (l : List Nat) (b : Nat) (hb : b ∈ l)
    (hub : ∀ x ∈ l, x ≤ b) : l.foldr max 0 = b := by
  induction l with
  | nil => simp at hb
  | cons x xs ih =>
    rw [List.foldr_cons]
    rcases List.mem_cons.mp hb with h1 | h1
    · subst h1
      have : xs.foldr max 0 ≤ b := foldr_max_le xs b fun y hy => hub y (by simp [hy])
      exact max_eq_left this
    · rw [ih h1 fun y hy => hub y (by simp [hy])]
      exact max_eq_right (hub x (by simp))
/-- C4 (amended): `build_tagdict` maps a word to a tag iff the word occurs
at least 5 times and its most frequent tag covers at least 97% of its
occurrences, and any tag it maps to attains the maximal count.  (The
spec's concrete scenario of ten DT and one IN is refuted separately:
10/11 < 0.97.) -/
theorem build_tagdict_characterization
    (sentences : List (List (String × String))) (w : String) :
    ((build_tagdict sentences w).isSome = true ↔
      5 ≤ (word_occs sentences w).length ∧
      (97 : Rat) / 100 ≤ (spec_max_tag_count sentences w : Rat) /
        ((word_occs sentences w).length : Rat)) ∧
    (∀ t, build_tagdict sentences w = some t →
      ((word_occs sentences w).filter fun p => p.2 = t).length =
        spec_max_tag_count sentences w) := by
  by_cases hlt : (word_occs sentences w).length < 5
  · constructor
    · rw [build_tagdict]
      simp only [if_pos hlt]
      simp [hlt, Nat.not_le.mpr hlt]
    · intro t ht
      rw [build_tagdict] at ht
      simp only [if_pos hlt] at ht
      exact absurd ht (by simp)
  · have htot : 5 ≤ (word_occs sentences w).length := Nat.not_lt.mp hlt
    have hocc : word_occs sentences w ≠ [] := by
      intro hc
      rw [hc] at htot
      simp at htot
    have hddne : first_dedup ((word_occs sentences w).map Prod.snd) ≠ [] := by
      obtain ⟨p, hp⟩ := List.exists_mem_of_ne_nil _ hocc
      intro hc
      have hin : p.2 ∈ first_dedup ((word_occs sentences w).map Prod.snd) :=
        (mem_first_dedup _ _).mpr (List.mem_map.mpr ⟨p, hp, rfl⟩)
      rw [hc] at hin
      simp at hin
    cases hdd : first_dedup ((word_occs sentences w).map Prod.snd) with
    | nil => exact absurd hdd hddne
    | cons t0 ts =>
      obtain ⟨r, hr, hmem, hmax⟩ := best_tag_max
        (fun t => ((word_occs sentences w).filter fun p => p.2 = t).length) t0 ts
      have hcount : ((word_occs sentences w).filter fun p => p.2 = r).length =
          spec_max_tag_count sentences w := by
        rw [spec_max_tag_count, hdd]
        refine (foldr_max_eq _ _ ?_ ?_).symm
        · exact List.mem_map.mpr ⟨r, hmem, rfl⟩
        · intro x hx
          obtain ⟨v, hv, hvx⟩ := List.mem_map.mp hx
          rw [← hvx]
          exact hmax v hv
      have hbuild : build_tagdict sentences w =
          (if (((word_occs sentences w).filter fun p => p.2 = r).length : Rat) /
              ((word_occs sentences w).length : Rat) ≥ 97 / 100 then
            some r
          else none) := by
        rw [build_tagdict]
        simp only [if_neg hlt, hdd, hr]
      constructor
      · rw [hbuild, hcount]
        split_ifs with hratio
        · simp only [Option.isSome_some, true_iff]
          exact ⟨htot, hratio⟩
        · simp only [Option.isSome_none]
          constructor
          · intro hc
            cases hc
          · intro hc
            exact absurd hc.2 hratio
      · intro t ht
        rw [hbuild] at ht
        split_ifs at ht with hratio
        cases ht
        exact hcount

/-- Counterexample to C4 as stated: with ten `(the, DT)` and one `(the, IN)`
training tokens, `build_tagdict` does not include "the" at all, because
10/11 < 0.97 (the spec's arithmetic `10/11 ≥ 0.97` is wrong). -/
theorem build_tagdict_ten_dt_one_in :
    build_tagdict c4_sents "the" = none ∧ (10 : Rat) / 11 < 97 / 100 := by
  constructor
  · have hbt : best_tag
        (fun t => ((word_occs c4_sents "the").filter fun p => p.2 = t).length)
        (first_dedup ((word_occs c4_sents "the").map Prod.snd)) =
          some "DT" := by decide
    have hcn : ((word_occs c4_sents "the").filter fun p => p.2 = "DT").length =
        10 := by decide
    have hln : (word_occs c4_sents "the").length = 11 := by decide
    rw [build_tagdict, if_neg (by decide), hbt]
    simp only [hcn, hln]
    rw [if_neg (by norm_num)]
  · norm_num

/-- Witness for C4 (amended): with five `(the, DT)` tokens, "the" is
included, maps to DT, and DT has the maximal count. -/
theorem build_tagdict_characterization_witness :
    build_tagdict c4_sents2 "the" = some "DT" ∧
    ((word_occs c4_sents2 "the").filter fun p => p.2 = "DT").length =
      spec_max_tag_count c4_sents2 "the" := by
  have hsome : build_tagdict c4_sents2 "the" = some "DT" := by
    have hbt : best_tag
        (fun t => ((word_occs c4_sents2 "the").filter fun p => p.2 = t).length)
        (first_dedup ((word_occs c4_sents2 "the").map Prod.snd)) =
          some "DT" := by decide
    have hcn : ((word_occs c4_sents2 "the").filter fun p => p.2 = "DT").length =
        5 := by decide
    have hln : (word_occs c4_sents2 "the").length = 5 := by decide
    rw [build_tagdict, if_neg (by decide), hbt]
    simp only [hcn, hln]
    rw [if_pos (by norm_num)]
  exact ⟨hsome, (build_tagdict_characterization c4_sents2 "the").2 "DT" hsome⟩
theorem shape_fold_congr_aux (f g : Char → Char) (l : List Char)
    (h : ∀ c ∈ l, f c = g c) :
    ∀ acc, l.foldl (fun (acc : List Char × Option Char) ch =>
        if some (f ch) = acc.2 then acc else (acc.1 ++ [f ch], some (f ch))) acc =
      l.foldl (fun (acc : List Char × Option Char) ch =>
        if some (g ch) = acc.2 then acc else (acc.1 ++ [g ch], some (g ch))) acc := by
  induction l with
  | nil => intro acc; rfl
  | cons c cs ih =>
    intro acc
    rw [List.foldl_cons, List.foldl_cons, h c (by simp)]
    exact ih (fun d hd => h d (by simp [hd])) _

theorem shape_fold_acc_grows (f : Char → Char) (l : List Char) :
    ∀ acc : List Char × Option Char, ∃ t,
      (l.foldl (fun (acc : List Char × Option Char) ch =>
        if some (f ch) = acc.2 then acc else (acc.1 ++ [f ch], some (f ch)))
        acc).1 = acc.1 ++ t := by
  induction l with
  | nil => intro acc; exact ⟨[], by simp⟩
  | cons c cs ih =>
    intro acc
    rw [List.foldl_cons]
    split_ifs with h
    · exact ih acc
    · obtain ⟨t, ht⟩ := ih (acc.1 ++ [f c], some (f c))
      exact ⟨[f c] ++ t, by rw [ht]; simp⟩

theorem shape_fold_ne_nil (f : Char → Char) (c : Char) (cs : List Char) :
    shape_fold f (c :: cs) ≠ [] := by
  rw [shape_fold, List.foldl_cons]
  rw [if_neg (by simp : ¬ (some (f c) = (([], none) : List Char × Option Char).2))]
  obtain ⟨t, ht⟩ := shape_fold_acc_grows f cs
    ((([], none) : List Char × Option Char).1 ++ [f c], some (f c))
  rw [ht]
  simp

/-- C8 (amended): the POS tagger's and the dependency parser's
`_word_shape` agree on every nonempty word whose characters are all
uppercase letters, lowercase letters, digits, hyphens or periods.  (They
differ elsewhere: the parser maps other characters to `.`, the tagger
keeps them; see the counterexample.) -/
theorem word_shape_agree (w : String)
    (hclass : ∀ c ∈ w.data, c.isUpper ∨ c.isLower ∨ c.isDigit ∨ c = '-' ∨ c = '.')
    (hne : w.data ≠ []) :
    pos_word_shape w = dep_word_shape w := by
  have hchar : ∀ c ∈ w.data, pos_shape_char c = dep_shape_char c := by
    intro c hc
    rcases hclass c hc with h | h | h | h | h
    · simp [pos_shape_char, dep_shape_char, h]
    · simp only [pos_shape_char, dep_shape_char, h]
      split_ifs <;> rfl
    · simp only [pos_shape_char, dep_shape_char, h]
      split_ifs <;> rfl
    · subst h
      rfl
    · subst h
      rfl
  have heq : shape_fold pos_shape_char w.data =
      shape_fold dep_shape_char w.data := by
    rw [shape_fold, shape_fold]
    exact congrArg Prod.fst (shape_fold_congr_aux _ _ _ hchar ([], none))
  cases hw : w.data with
  | nil => exact absurd hw hne
  | cons c cs =>
    rw [pos_word_shape, dep_word_shape, heq]
    rw [if_neg (by rw [hw]; exact shape_fold_ne_nil _ c cs)]

/-- Counterexample to C8 as stated: the parser's shape function maps `@` to
`.`, not to the literal character, so the two shape functions disagree on
the word `"@"`. -/
theorem word_shape_at_sign :
    pos_word_shape "@" = "@" ∧ dep_word_shape "@" = "." ∧
    pos_word_shape "@" ≠ dep_word_shape "@" :=
  ⟨by decide, by decide, by decide⟩

/-- Witness for C8 (amended): the shapes of `"Ab3-."` agree. -/
theorem word_shape_agree_witness :
    (∀ c ∈ ("Ab3-." : String).data,
      c.isUpper ∨ c.isLower ∨ c.isDigit ∨ c = '-' ∨ c = '.') ∧
    ("Ab3-." : String).data ≠ [] ∧
    pos_word_shape "Ab3-." = dep_word_shape "Ab3-." :=
  ⟨by decide, by decide, word_shape_agree "Ab3-." (by decide) (by decide)⟩

/-- C10: the two `parse_conllu` readers disagree on token lines with 5 to 9
tab-separated fields: on a 7-field line the POS reader (which requires at
least 5 fields) yields the token while the parser reader (which requires
at least 10) yields no sentence at all. -/
theorem conllu_readers_differ :
    (split_tab (trim_chars ("1\tfoo\t_\t_\tNN\t_\t7" : String).data)).length = 7 ∧
    pos_parse_conllu c10_lines = [[("foo", "NN")]] ∧
    dep_parse_conllu c10_lines = [] :=
  ⟨by decide, by decide, by decide⟩
/-- One sweep maps the ten-bin staircase to itself and reports a change:
the violating head pairs average-and-round back onto the same doubles
(e.g. `round((0.5732 + 0.5731)/2, 4) = 0.5732` since the double sum
exceeds the decimal midpoint), computed here bit-for-bit on scaled
integers. -/
theorem pav_pass_c6_bad : pav_pass c6_bad = (c6_bad, true) := rfl

/-- C6: the pool-adjacent-violators loop of `build_calibration_table` need
not terminate, contrary to the claim.  Under exact binary64 float
semantics, one full sweep maps the reachable ten-bin configuration
`c6_bad` (head staircase `0.5732, 0.5731, 0.5730, 0.5729, 0.5729`) to
itself while reporting `changed = true`, so `while changed` runs forever:
no amount of fuel makes `pav_loop` return. -/
theorem calibration_pav_loop_diverges :
    pav_pass c6_bad = (c6_bad, true) ∧ ∀ fuel, pav_loop fuel c6_bad = none := by
  refine ⟨pav_pass_c6_bad, ?_⟩
  intro fuel
  induction fuel with
  | zero => rfl
  | succ f ih =>
    rw [pav_loop, pav_pass_c6_bad]
    simpa using ih
theorem row_fold_val (hsh : Nat) (row : List (String × Rat)) (b : Nat)
    (c : String) :
    ∀ acc : Nat → String → Rat,
      (row.foldl (fun acc2 tw => fun b2 c2 =>
        if b2 = hsh ∧ c2 = tw.1 then acc2 b2 c2 + tw.2 else acc2 b2 c2) acc) b c =
      acc b c +
        (if hsh = b then ((row.filter fun tw => tw.1 = c).map Prod.snd).sum
         else 0) := by
  induction row with
  | nil =>
    intro acc
    simp
  | cons tw tws ih =>
    intro acc
    rw [List.foldl_cons, ih]
    by_cases hb : hsh = b
    · by_cases hc : tw.1 = c
      · rw [if_pos ⟨hb.symm, hc.symm⟩, if_pos hb, if_pos hb]
        rw [List.filter_cons_of_pos (by simp [hc])]
        rw [List.map_cons, List.sum_cons]
        ring
      · rw [if_neg (by tauto), if_pos hb, if_pos hb]
        rw [List.filter_cons_of_neg (by simp [hc])]
    · rw [if_neg (by tauto), if_neg hb, if_neg hb]

theorem ws_fold_val (ws : List (String × List (String × Rat))) (B : Nat)
    (b : Nat) (c : String) :
    ∀ acc : Nat → String → Rat,
      (ws.foldl (fun acc fr =>
        fr.2.foldl (fun acc2 tw => fun b2 c2 =>
          if b2 = fnv1a_hash fr.1 B ∧ c2 = tw.1 then acc2 b2 c2 + tw.2
          else acc2 b2 c2) acc) acc) b c =
      acc b c + bucket_sum_spec ws B b c := by
  induction ws with
  | nil =>
    intro acc
    simp [bucket_sum_spec]
  | cons fr frs ih =>
    intro acc
    rw [List.foldl_cons, ih, row_fold_val]
    simp only [bucket_sum_spec, List.map_cons, List.sum_cons]
    ring

theorem hash_accum_val_eq_spec (ws : List (String × List (String × Rat)))
    (B : Nat) (b : Nat) (c : String) :
    hash_accum_val ws B b c = bucket_sum_spec ws B b c := by
  rw [hash_accum_val, ws_fold_val]
  exact zero_add _

theorem row_fold_touched (hsh : Nat) (row : List (String × Rat)) (b : Nat)
    (c : String) :
    ∀ acc : Nat → String → Bool,
      (row.foldl (fun acc2 tw => fun b2 c2 =>
        if b2 = hsh ∧ c2 = tw.1 then true else acc2 b2 c2) acc) b c =
      (acc b c ||
        (decide (hsh = b) && row.any fun tw => decide (tw.1 = c))) := by
  induction row with
  | nil =>
    intro acc
    simp
  | cons tw tws ih =>
    intro acc
    rw [List.foldl_cons, ih]
    by_cases hb : hsh = b
    · by_cases hc : tw.1 = c
      · rw [if_pos ⟨hb.symm, hc.symm⟩]
        simp [hb, hc]
      · rw [if_neg (by tauto)]
        simp [hb, hc]
    · rw [if_neg (by tauto)]
      simp [hb]

theorem ws_fold_touched (ws : List (String × List (String × Rat))) (B : Nat)
    (b : Nat) (c : String) :
    ∀ acc : Nat → String → Bool,
      (ws.foldl (fun acc fr =>
        fr.2.foldl (fun acc2 tw => fun b2 c2 =>
          if b2 = fnv1a_hash fr.1 B ∧ c2 = tw.1 then true else acc2 b2 c2) acc)
        acc) b c =
      (acc b c || bucket_touched_spec ws B b c) := by
  induction ws with
  | nil =>
    intro acc
    simp [bucket_touched_spec]
  | cons fr frs ih =>
    intro acc
    rw [List.foldl_cons, ih, row_fold_touched]
    simp only [bucket_touched_spec, List.any_cons]
    rw [Bool.or_assoc]

theorem hash_accum_touched_eq_spec (ws : List (String × List (String × Rat)))
    (B : Nat) (b : Nat) (c : String) :
    hash_accum_touched ws B b c = bucket_touched_spec ws B b c := by
  rw [hash_accum_touched, ws_fold_touched]
  simp

theorem hash_model_lookup_eq_spec (ws : List (String × List (String × Rat)))
    (B : Nat) (prune : Rat) (b : Nat) (c : String) :
    hash_model_lookup ws B prune b c =
      if bucket_touched_spec ws B b c = true ∧
          prune ≤ |round2 (bucket_sum_spec ws B b c)| then
        some (round2 (bucket_sum_spec ws B b c))
      else none := by
  rw [hash_model_lookup, hash_accum_val_eq_spec, hash_accum_touched_eq_spec]
/-- C5: in `hash_model`, every (feature, class) weight is added into the
bucket `fnv1a_hash(feature) % num_buckets`, so a cell of the hashed model
holds the rounded sum of all weights hashing to its bucket — kept iff the
bucket was touched and the rounded sum clears the pruning threshold — and
on two colliding keys the stored value is `round(w1 + w2, 2)`. -/
theorem hash_model_collision_sum :
    (∀ (ws : List (String × List (String × Rat))) (B : Nat) (prune : Rat)
        (b : Nat) (c : String),
      hash_model_lookup ws B prune b c =
        if bucket_touched_spec ws B b c = true ∧
            prune ≤ |round2 (bucket_sum_spec ws B b c)| then
          some (round2 (bucket_sum_spec ws B b c))
        else none) ∧
    hash_model_lookup [("a", [("c", 5 / 4)]), ("b", [("c", 9 / 4)])] 1 0 0 "c" =
      some (7 / 2) ∧
    fnv1a_hash "a" 1 = fnv1a_hash "b" 1 := by
  refine ⟨hash_model_lookup_eq_spec, ?_, by decide⟩
  rw [hash_model_lookup_eq_spec]
  have hsum : bucket_sum_spec [("a", [("c", 5 / 4)]), ("b", [("c", 9 / 4)])]
      1 0 "c" = 7 / 2 := by
    have h1 : fnv1a_hash "a" 1 = 0 := by decide
    have h2 : fnv1a_hash "b" 1 = 0 := by decide
    rw [bucket_sum_spec]
    simp only [List.map_cons, List.map_nil, h1, h2, if_pos]
    norm_num [List.filter]
  have hround : round2 ((7 : Rat) / 2) = 7 / 2 := by
    have hx : (7 : Rat) / 2 * 100 = ((350 : Int) : Rat) := by norm_num
    have hfl : Int.floor (((350 : Int) : Rat)) = 350 := Int.floor_intCast 350
    rw [round2, hx, round_half_even, hfl]
    norm_num
  rw [hsum, hround]
  rw [if_pos ⟨by decide, by norm_num⟩]
theorem fold_round_length (l : List (Nat × Nat)) (h : List Nat)
    (hh : h.length = 8) : (l.foldl sha256_round h).length = 8 := by
  induction l generalizing h with
  | nil => exact hh
  | cons a t ih => exact ih _ rfl

theorem sha256_compress_length (h block : List Nat) (hh : h.length = 8) :
    (sha256_compress h block).length = 8 := by
  unfold sha256_compress
  rw [List.length_zipWith, fold_round_length _ _ hh, hh]
  exact Nat.min_self 8

theorem fold_compress_length (blocks : List (List Nat)) (h : List Nat)
    (hh : h.length = 8) : (blocks.foldl sha256_compress h).length = 8 := by
  induction blocks generalizing h with
  | nil => exact hh
  | cons b t ih => exact ih _ (sha256_compress_length _ _ hh)

theorem flat_u32be_length (h : List Nat) :
    ((h.map u32be).flatten).length = 4 * h.length := by
  induction h with
  | nil => rfl
  | cons a t ih =>
    simp only [List.map_cons, List.flatten_cons, List.length_append, ih,
      List.length_cons, u32be]
    simp only [List.length_cons, List.length_nil]
    omega

theorem sha256_length (msg : List Nat) : (sha256 msg).length = 32 := by
  unfold sha256
  rw [flat_u32be_length, fold_compress_length _ _ (rfl : sha256_h0.length = 8)]

theorem bin_header_eq (fc tc te ml fl wl : Nat) (chk : List Nat)
    (hlen : chk.length = 32) :
    bin_header fc tc te ml fl wl chk =
      [0x54, 0x54, 0x30, 0x31, 1, 1, 0, 2,
       fc % 256, fc / 256 % 256, fc / 65536 % 256, fc / 16777216 % 256,
       tc % 256, tc / 256 % 256, tc / 65536 % 256, tc / 16777216 % 256,
       te % 256, te / 256 % 256, te / 65536 % 256, te / 16777216 % 256,
       ml % 256, ml / 256 % 256, ml / 65536 % 256, ml / 16777216 % 256,
       fl % 256, fl / 256 % 256, fl / 65536 % 256, fl / 16777216 % 256,
       wl % 256, wl / 256 % 256, wl / 65536 % 256, wl / 16777216 % 256] ++
        chk := by
  have h2 : List.drop (32 + 32) (bin_header_pre fc tc te ml fl wl) =
      ([] : List Nat) := rfl
  have h3 : List.take 32 (bin_header_pre fc tc te ml fl wl) =
      [0x54, 0x54, 0x30, 0x31, 1, 1, 0, 2,
       fc % 256, fc / 256 % 256, fc / 65536 % 256, fc / 16777216 % 256,
       tc % 256, tc / 256 % 256, tc / 65536 % 256, tc / 16777216 % 256,
       te % 256, te / 256 % 256, te / 65536 % 256, te / 16777216 % 256,
       ml % 256, ml / 256 % 256, ml / 65536 % 256, ml / 16777216 % 256,
       fl % 256, fl / 256 % 256, fl / 65536 % 256, fl / 16777216 % 256,
       wl % 256, wl / 256 % 256, wl / 65536 % 256, wl / 16777216 % 256] := rfl
  rw [bin_header, set_slice, hlen, h2, h3, List.append_nil]

theorem header_split {α : Type} (A B C : List α) (hA : A.length = 32)
    (hB : B.length = 32) :
    (((A ++ B) ++ C).drop 32).take 32 = B ∧ ((A ++ B) ++ C).drop 64 = C := by
  constructor
  · rw [List.append_assoc, List.drop_left' hA, List.take_left' hB]
  · rw [List.append_assoc, show (64 : Nat) = A.length + 32 by rw [hA],
      List.drop_append, List.drop_left' hB]

/-- C7: `export_binary` writes a 64-byte header — magic `"TT01"`, version
bytes 1 and 1, endianness byte 0, model-type byte 2, then little-endian
`u32` feature count, transition count, total nonzero entries, metadata
length, feature-index length and weight-data length at offsets 8–31, and
the SHA-256 of the payload at bytes 32–63 — followed by the payload:
metadata, then the null-separated (and null-terminated) feature index,
then per feature, in feature-index order, a `u16` entry count and
`count × (u16 transition index, f32 weight)` pairs. -/
theorem export_binary_layout (ws : List (String × List (String × Rat)))
    (transitions : List String) (metadata_bytes : List Nat)
    (f32enc : Rat → List Nat) :
    (export_binary ws transitions metadata_bytes f32enc).take 4 =
        [0x54, 0x54, 0x30, 0x31] ∧
    (export_binary ws transitions metadata_bytes f32enc).getD 4 0 = 1 ∧
    (export_binary ws transitions metadata_bytes f32enc).getD 5 0 = 1 ∧
    (export_binary ws transitions metadata_bytes f32enc).getD 6 0 = 0 ∧
    (export_binary ws transitions metadata_bytes f32enc).getD 7 0 = 2 ∧
    ((export_binary ws transitions metadata_bytes f32enc).drop 8).take 4 =
        u32le (feature_list ws).length ∧
    ((export_binary ws transitions metadata_bytes f32enc).drop 12).take 4 =
        u32le transitions.length ∧
    ((export_binary ws transitions metadata_bytes f32enc).drop 16).take 4 =
        u32le (total_entries ws transitions) ∧
    ((export_binary ws transitions metadata_bytes f32enc).drop 20).take 4 =
        u32le metadata_bytes.length ∧
    ((export_binary ws transitions metadata_bytes f32enc).drop 24).take 4 =
        u32le (feat_index_bytes ws).length ∧
    ((export_binary ws transitions metadata_bytes f32enc).drop 28).take 4 =
        u32le (weight_bytes ws transitions f32enc).length ∧
    ((export_binary ws transitions metadata_bytes f32enc).drop 32).take 32 =
        sha256 (bin_payload ws transitions metadata_bytes f32enc) ∧
    (export_binary ws transitions metadata_bytes f32enc).drop 64 =
        bin_payload ws transitions metadata_bytes f32enc ∧
    bin_payload ws transitions metadata_bytes f32enc =
        metadata_bytes ++ feat_index_bytes ws ++
          weight_bytes ws transitions f32enc ∧
    feat_index_bytes ws =
        null_join ((feature_list ws).map ascii_bytes) ++ [0] ∧
    weight_bytes ws transitions f32enc =
        ((feature_list ws).map (feature_record ws transitions f32enc)).flatten ∧
    ∀ f, feature_record ws transitions f32enc f =
        u16le (sparse_entries ((ws.lookup f).getD []) transitions).length ++
          ((sparse_entries ((ws.lookup f).getD []) transitions).map
            fun e => u16le e.1 ++ f32enc e.2).flatten := by
  have hsha :
      (sha256 (bin_payload ws transitions metadata_bytes f32enc)).length =
        32 := sha256_length _
  have hh := bin_header_eq (feature_list ws).length transitions.length
    (total_entries ws transitions) metadata_bytes.length
    (feat_index_bytes ws).length (weight_bytes ws transitions f32enc).length
    _ hsha
  simp only [export_binary]
  rw [hh]
  refine ⟨rfl, rfl, rfl, rfl, rfl, rfl, rfl, rfl, rfl, rfl, rfl, ?_, ?_,
    rfl, rfl, rfl, fun _ => rfl⟩
  · exact (header_split _ _ _ (by rfl) hsha).1
  · exact (header_split _ _ _ (by rfl) hsha).2

end TagTeam
